import Mathlib

/-!
Verification development for the `ai_provenance` inline-metadata parser,
hunk extractor and file stamper (`src/ai_provenance/parsers/stamper.py` and
`src/ai_provenance/core/models.py`).

Strings are modelled as `List Char`.  The Python string primitives used by
the source (`str.strip`, `str.split(sep)`, `str.split(sep, 1)`,
`str.replace(old, "")`, `str.startswith`, substring membership,
`"sep".join`) are given as executable definitions named `py*` below, each
matching CPython semantics for the non-regex cases the source relies on.
The two regular expressions of the source anchor at the start of a single
line and use the character classes `\s` and `[#/\-*]`, whose greedy scans
are deterministic here because the classes are pairwise disjoint from the
literal `ai:` that follows; they are embedded as the span-based functions
`matchTagCapture`, `hunkEndMatch` and `stampLineMatch`.

File I/O is factored out: `stamp_file` takes the file content and the
file extension as arguments and returns the new content (or a validation
error), and `datetime.utcnow().strftime("%Y-%m-%d")` is modelled by an
explicit `today` argument.
-/

namespace AIProvenance

abbrev Str := List Char

/-- Whitespace for `str.strip` / the regex class `\s` (ASCII range, which is
all the source data uses). -/
def pySpace (c : Char) : Bool :=
  c = ' ' || c = '\t' || c = '\n' || c = '\r' || c = '\x0b' || c = '\x0c'

/-- The character class `[#/\-*]` of the source's tag-line regexes. -/
def isMarkerChar (c : Char) : Bool :=
  c = '#' || c = '/' || c = '-' || c = '*'

/-- Python `str.lstrip()`. -/
def pyLStrip (s : Str) : Str := s.dropWhile pySpace

/-- Python `str.rstrip()`. -/
def pyRStrip (s : Str) : Str := (s.reverse.dropWhile pySpace).reverse

/-- Python `str.strip()`. -/
def pyStrip (s : Str) : Str := pyLStrip (pyRStrip s)

/-- Python `str.split(sep)` for a one-character separator (every `split`
in the source uses a one-character separator). -/
def pySplitChar (sep : Char) : Str → List Str
  | [] => [[]]
  | c :: rest =>
    if c = sep then [] :: pySplitChar sep rest
    else
      let r := pySplitChar sep rest
      (c :: r.headD []) :: r.tail

/-- Python `str.split(sep, 1)` for a one-character separator. -/
def pySplitFirst (sep : Char) (s : Str) : List Str :=
  let pre := s.takeWhile (· ≠ sep)
  if pre.length = s.length then [s] else [pre, s.drop (pre.length + 1)]

/-- Python `sep.join(parts)`. -/
def pyJoin (sep : Str) : List Str → Str
  | [] => []
  | [p] => p
  | p :: q :: rest => p ++ sep ++ pyJoin sep (q :: rest)

/-- Python `str.replace(old, "")` for a one-character `old`. -/
def replaceDrop1 (a : Char) (s : Str) : Str := s.filter (· ≠ a)

/-- Python `str.replace(old, "")` for a two-character `old` (left-to-right,
non-overlapping). -/
def replaceDrop2 (a b : Char) : Str → Str
  | [] => []
  | [c] => [c]
  | c :: d :: rest =>
    if c = a ∧ d = b then replaceDrop2 a b rest
    else c :: replaceDrop2 a b (d :: rest)

/-- Python `enumerate(xs, n)`. -/
def pyEnumerate (n : Nat) : List α → List (Nat × α)
  | [] => []
  | a :: as => (n, a) :: pyEnumerate (n + 1) as

/-- Python `pat in s` (substring membership). -/
def pyInStr (pat : Str) : Str → Bool
  | [] => pat.isEmpty
  | c :: rest => pat.isPrefixOf (c :: rest) || pyInStr pat rest

/-- Index of the first element satisfying `p` (the line `re.search` /
`re.sub(count=1)` pick when scanning a line list in order). -/
def findFirstIdx (p : α → Bool) : List α → Option Nat
  | [] => none
  | a :: as => if p a then some 0 else (findFirstIdx p as).map (· + 1)

/-! ### Enums from `core/models.py` -/

/-- `class AITool(str, Enum)` — the supported AI tools. -/
inductive AITool where
  | claude | copilot | chatgpt | gemini | cursor | other
  deriving DecidableEq

/-- The string value of each `AITool` member. -/
def AITool.str : AITool → Str
  | .claude => "claude".data
  | .copilot => "copilot".data
  | .chatgpt => "chatgpt".data
  | .gemini => "gemini".data
  | .cursor => "cursor".data
  | .other => "other".data

/-- `AITool(s)` — value lookup; `none` models the `ValueError`. -/
def AITool.ofString? (s : Str) : Option AITool :=
  if s = "claude".data then some .claude
  else if s = "copilot".data then some .copilot
  else if s = "chatgpt".data then some .chatgpt
  else if s = "gemini".data then some .gemini
  else if s = "cursor".data then some .cursor
  else if s = "other".data then some .other
  else none

/-- `try: AITool(s) except ValueError: AITool.OTHER` as a total function. -/
def AITool.ofStringD (s : Str) : AITool := (AITool.ofString? s).getD .other

/-- `class Confidence(str, Enum)` — high / med / low. -/
inductive Confidence where
  | high | med | low
  deriving DecidableEq

/-- The string value of each `Confidence` member. -/
def Confidence.str : Confidence → Str
  | .high => "high".data
  | .med => "med".data
  | .low => "low".data

/-- `Confidence(s)` — value lookup; `none` models the `ValueError`. -/
def Confidence.ofString? (s : Str) : Option Confidence :=
  if s = "high".data then some .high
  else if s = "med".data then some .med
  else if s = "low".data then some .low
  else none

/-! ### `InlineMetadata.parse_comment` from `core/models.py` -/

/-- The literal `"ai:"`. -/
def aiKey : Str := "ai:".data

/-- `class InlineMetadata` — the decoded form of one inline comment
(`line_number` is never set by `parse_comment` and is omitted). -/
structure InlineMetadata where
  tool : Option AITool := none
  confidence : Option Confidence := none
  trace : Option Str := none
  tests : Option (List Str) := none
  reviewed : Option Str := none
  deriving DecidableEq

/-- The empty metadata dict (no key set yet). -/
def emptyMeta : InlineMetadata := {}

/-- One iteration of the `for part in parts` loop of
`InlineMetadata.parse_comment`, updating the metadata dict. -/
def applyPart (m : InlineMetadata) (part : Str) : InlineMetadata :=
  if aiKey.isPrefixOf part then
    let ai_parts := pySplitChar ':' part
    let m1 := if 2 ≤ ai_parts.length then
        { m with tool := some (AITool.ofStringD (ai_parts.getD 1 [])) }
      else m
    if 3 ≤ ai_parts.length then
      match Confidence.ofString? (ai_parts.getD 2 []) with
      | some c => { m1 with confidence := some c }
      | none => m1
    else m1
  else if part.contains ':' then
    match pySplitFirst ':' part with
    | [k, v] =>
      let key := pyStrip k
      let value := pyStrip v
      if key = "trace".data then { m with trace := some value }
      else if key = "test".data then
        { m with tests := some ((pySplitChar ',' value).map pyStrip) }
      else if key = "reviewed".data then { m with reviewed := some value }
      else m
    | _ => m
  else m

/-- The comment-marker stripping pipeline at the top of `parse_comment`:
`strip()`, then `replace(marker, "")` for each of `#`, `//`, `/*`, `*/`,
then `strip()` again. -/
def parseClean (comment : Str) : Str :=
  let c0 := pyStrip comment
  let c1 := replaceDrop1 '#' c0
  let c2 := replaceDrop2 '/' '/' c1
  let c3 := replaceDrop2 '/' '*' c2
  let c4 := replaceDrop2 '*' '/' c3
  pyStrip c4

/-- `InlineMetadata.parse_comment` (`core/models.py`). -/
def InlineMetadata.parse_comment (comment : Str) : Option InlineMetadata :=
  let clean := parseClean comment
  if aiKey.isPrefixOf clean then
    let parts := (pySplitChar '|' clean).map pyStrip
    let m := parts.foldl applyPart emptyMeta
    if m = emptyMeta then none else some m
  else none

/-! ### `parsers/stamper.py` -/

/-- The `COMMENT_STYLES` extension table. -/
def COMMENT_STYLES : List (Str × Str) :=
  [(".py".data, "#".data), (".rb".data, "#".data), (".sh".data, "#".data),
   (".bash".data, "#".data), (".yaml".data, "#".data), (".yml".data, "#".data),
   (".toml".data, "#".data), (".r".data, "#".data),
   (".js".data, "//".data), (".ts".data, "//".data), (".jsx".data, "//".data),
   (".tsx".data, "//".data), (".java".data, "//".data), (".c".data, "//".data),
   (".cpp".data, "//".data), (".cc".data, "//".data), (".h".data, "//".data),
   (".hpp".data, "//".data), (".cs".data, "//".data), (".go".data, "//".data),
   (".rs".data, "//".data), (".swift".data, "//".data), (".kt".data, "//".data),
   (".scala".data, "//".data), (".php".data, "//".data),
   (".sql".data, "--".data), (".lua".data, "--".data), (".hs".data, "--".data),
   (".ml".data, "(*".data), (".ex".data, "#".data), (".exs".data, "#".data)]

/-- `detect_comment_style` — lower-cased extension looked up in
`COMMENT_STYLES`, defaulting to `#`. -/
def detect_comment_style (ext : Str) : Str :=
  let e := ext.map Char.toLower
  ((COMMENT_STYLES.find? (fun p => p.1 = e)).map (·.2)).getD "#".data

/-- `format_inline_metadata` — encode one tag line.  The current UTC date
used for `reviewed` is passed in as `today`. -/
def format_inline_metadata (tool confidence : Str)
    (trace tests : Option (List Str)) (reviewer : Option Str)
    (today : Str) (comment_style : Str) : Str :=
  let parts := [aiKey ++ tool ++ ':' :: confidence]
  let parts := parts ++
    (match trace with
     | some ts => if ts.isEmpty then [] else ["trace:".data ++ pyJoin [','] ts]
     | none => [])
  let parts := parts ++
    (match tests with
     | some ts => if ts.isEmpty then [] else ["test:".data ++ pyJoin [','] ts]
     | none => [])
  let parts := parts ++
    (match reviewer with
     | some rv =>
       if rv.isEmpty then []
       else
         let reviewer_name := if rv.contains '@' then rv.takeWhile (· ≠ '@') else rv
         ["reviewed:".data ++ today ++ ':' :: reviewer_name]
     | none => [])
  let metadata := pyJoin " | ".data parts
  if comment_style = "(*".data then "(* ".data ++ metadata ++ " *)".data
  else if comment_style = "/*".data then "/* ".data ++ metadata ++ " */".data
  else comment_style ++ ' ' :: metadata

/-- The metadata dict built by `_parse_metadata_string` (string-valued
fields, no enum mapping). -/
structure RawMetadata where
  tool : Option Str := none
  confidence : Option Str := none
  trace : Option Str := none
  tests : Option (List Str) := none
  reviewed : Option Str := none
  deriving DecidableEq

/-- The empty raw metadata dict. -/
def emptyRaw : RawMetadata := {}

/-- One iteration of the `for part in parts` loop of
`_parse_metadata_string`. -/
def applyRawPart (m : RawMetadata) (part : Str) : RawMetadata :=
  if aiKey.isPrefixOf part then
    let ai_parts := pySplitChar ':' part
    let m1 := if 2 ≤ ai_parts.length then { m with tool := some (ai_parts.getD 1 []) }
      else m
    if 3 ≤ ai_parts.length then { m1 with confidence := some (ai_parts.getD 2 []) }
    else m1
  else if part.contains ':' then
    match pySplitFirst ':' part with
    | [k, v] =>
      let key := pyStrip k
      let value := pyStrip v
      if key = "trace".data then { m with trace := some value }
      else if key = "test".data then
        { m with tests := some ((pySplitChar ',' value).map pyStrip) }
      else if key = "reviewed".data then { m with reviewed := some value }
      else m
    | _ => m
  else m

/-- `_parse_metadata_string` (`parsers/stamper.py`). -/
def parse_metadata_string (metadata_str : Str) : Option RawMetadata :=
  let parts := (pySplitChar '|' metadata_str).map pyStrip
  let m := parts.foldl applyRawPart emptyRaw
  if m = emptyRaw then none else some m

/-- The remainder of a line after the scanner's `\s*[#/\-*]+\s*` preamble:
leading whitespace, then the comment-marker run, then whitespace. -/
def scanClean (line : Str) : Str :=
  (((line.dropWhile pySpace).dropWhile isMarkerChar).dropWhile pySpace)

/-- `re.search(r"^\s*[#/\-*]+\s*(ai:.+)$", line)` on a newline-free line:
returns the capture group on success.  The greedy scans are exact because
`\s`, `[#/\-*]` and the leading `a` of `ai:` are pairwise disjoint. -/
def matchTagCapture (line : Str) : Option Str :=
  let r1 := line.dropWhile pySpace
  let ms := r1.takeWhile isMarkerChar
  let r3 := scanClean line
  if ms ≠ [] ∧ aiKey.isPrefixOf r3 ∧ 3 < r3.length then some r3 else none

/-- `parse_inline_metadata` — scan all lines (1-based) for tag comments. -/
def parse_inline_metadata (content : Str) : List (Nat × RawMetadata) :=
  (pyEnumerate 1 (pySplitChar '\n' content)).filterMap fun p =>
    (matchTagCapture p.2).bind fun g =>
      (parse_metadata_string g).map fun md => (p.1, md)

/-- `re.search(r"^\s*[#/\-*]+\s*ai:", line)` as a Bool. -/
def hunkEndMatch (line : Str) : Bool :=
  let r1 := line.dropWhile pySpace
  let ms := r1.takeWhile isMarkerChar
  !ms.isEmpty && aiKey.isPrefixOf (scanClean line)

/-- `_find_hunk_end(lines, start)` — scan `range(start, len(lines))` for the
first line matching the prefix pattern; return `i - 1` on a hit (`Nat`
subtraction, as `i ≥ start ≥ 1` at every call site), else `len(lines)`. -/
def find_hunk_end (lines : List Str) (start : Nat) : Nat :=
  match findFirstIdx hunkEndMatch (lines.drop start) with
  | some k => start + k - 1
  | none => lines.length

/-- `find_ai_hunks` — one `(start_line, end_line, metadata)` triple per
located tag. -/
def find_ai_hunks (content : Str) : List (Nat × Nat × RawMetadata) :=
  let metadata_lines := parse_inline_metadata content
  if metadata_lines.isEmpty then []
  else
    let lines := pySplitChar '\n' content
    metadata_lines.map fun p => (p.1, find_hunk_end lines p.1, p.2)

/-- `re.search(r"^[#/\-*]+\s*ai:.*$", line, re.MULTILINE)` restricted to a
single newline-free line: marker run at column 1, optional whitespace,
then `ai:`. -/
def stampLineMatch (line : Str) : Bool :=
  let ms := line.takeWhile isMarkerChar
  let r := (line.dropWhile isMarkerChar).dropWhile pySpace
  !ms.isEmpty && aiKey.isPrefixOf r

/-- The two `ValueError`s raised by `stamp_file`'s validation. -/
inductive StampError where
  | invalidTool | invalidConfidence
  deriving DecidableEq

deriving instance DecidableEq for Except

/-- The content transformation performed by `stamp_file` after validation
(read, update-or-insert, write). -/
def stampContent (ext content : Str) (tool confidence : Str)
    (trace tests : Option (List Str)) (reviewer : Option Str)
    (position : Str) (today : Str) : Str :=
  let comment_style := detect_comment_style ext
  let metadata_line :=
    format_inline_metadata tool confidence trace tests reviewer today comment_style
  if pyInStr (aiKey ++ tool) content then
    -- `re.search(r"ai:" + re.escape(tool), content)` succeeded:
    -- replace the first line matching the multiline pattern, if any.
    let lines := pySplitChar '\n' content
    match findFirstIdx stampLineMatch lines with
    | some i => pyJoin ['\n'] (lines.set i metadata_line)
    | none => content
  else if position = "top".data then
    let lines := pySplitChar '\n' content
    let ip0 := if (match lines with
                   | l :: _ => "#!".data.isPrefixOf l
                   | [] => false) then 1 else 0
    let ip := if ip0 < lines.length ∧
        (pyInStr "coding:".data (lines.getD ip0 []) ∨
         pyInStr "encoding:".data (lines.getD ip0 [])) then ip0 + 1 else ip0
    pyJoin ['\n'] (lines.insertIdx ip metadata_line)
  else
    pyRStrip content ++ "\n\n".data ++ metadata_line ++ ['\n']

/-- `stamp_file` — validate tool and confidence, then transform the file
content.  The file path is represented by its extension `ext`; writing the
result back is the caller's (file system's) side effect. -/
def stamp_file (ext content : Str) (tool confidence : Str)
    (trace tests : Option (List Str)) (reviewer : Option Str)
    (position : Str) (today : Str) : Except StampError Str :=
  match AITool.ofString? tool with
  | none => .error .invalidTool
  | some _ =>
    match Confidence.ofString? confidence with
    | none => .error .invalidConfidence
    | some _ =>
      .ok (stampContent ext content tool confidence trace tests reviewer position today)

/-! ### Well-formedness predicates for field values, and concrete inputs -/

/-- Characters allowed in a requirement / test / reviewer / date identifier:
alphanumerics plus `-`, `_`, `.` (covers `SPEC-89`, `TC-210`, `2025-11-16`,
`alice`). -/
def goodChar (c : Char) : Bool := c.isAlphanum || c = '-' || c = '_' || c = '.'

/-- A well-formed identifier: nonempty, made only of `goodChar`s. -/
def GoodIdent (s : Str) : Prop := s ≠ [] ∧ ∀ c ∈ s, goodChar c = true

instance decidableGoodIdent (s : Str) : Decidable (GoodIdent s) :=
  inferInstanceAs (Decidable (s ≠ [] ∧ ∀ c ∈ s, goodChar c = true))

/-- Characters that can occur inside one `|`-separated part of a tag body:
identifier characters plus the `:` and `,` sub-separators. -/
def partChar (c : Char) : Bool := goodChar c || c = ':' || c = ','

/-- Characters that can occur in a whole tag body (parts joined by a
spaced `|`). -/
def mlineChar (c : Char) : Bool := partChar c || c = ' ' || c = '|'

/-- The reviewer short name `format_inline_metadata` embeds:
`reviewer.split("@")[0]` when an `@` is present, else the reviewer
itself. -/
def nameOf (rv : Str) : Str := if rv.contains '@' then rv.takeWhile (· ≠ '@') else rv

/-- The optional `trace:`/`test:` part the encoder appends: nothing when
the field is absent or empty, else one `key:`-prefixed comma-joined
part. -/
def optListPart (key : Str) : Option (List Str) → List Str
  | some ts => if ts.isEmpty then [] else [key ++ pyJoin [','] ts]
  | none => []

/-- The optional `reviewed:` part the encoder appends. -/
def optRevPart (today : Str) : Option Str → List Str
  | some rv => if rv.isEmpty then [] else ["reviewed:".data ++ today ++ ':' :: nameOf rv]
  | none => []

/-- A filler source line used by the concrete scenario files. -/
def xLine : Str := "x = 1".data

/-- The 30-line scenario file of the spec: tags at lines 5 and 20. -/
def c1content : Str :=
  pyJoin ['\n']
    (List.replicate 4 xLine ++ ["# ai:claude:high".data] ++
     List.replicate 14 xLine ++ ["# ai:copilot:low".data] ++
     List.replicate 10 xLine)

/-- Two tag lines on consecutive lines 1 and 2, then one code line. -/
def c2content : Str := "# ai:claude:high\n# ai:copilot:low\nx = 1".data

/-- A file whose first column-1 tag line belongs to a different tool than
the one at line 3. -/
def c7content : Str := "# ai:copilot:low\ncode\n# ai:claude:high".data

/-- The spec scenario file for stamping: a single claude tag at line 3. -/
def c7scenario : Str := "x = 1\ny = 2\n# ai:claude:high".data

/-- A file with a copilot tag, about to receive a bottom-position claude
stamp. -/
def c8content : Str := "# ai:copilot:low\ncode".data

/-! ### Basic lemmas about the Python string primitives -/

theorem dropWhile_cons_true {p : α → Bool} (a : α) (l : List α) (h : p a = true) :
    (a :: l).dropWhile p = l.dropWhile p := by
  simp [List.dropWhile_cons, h]

theorem dropWhile_cons_false {p : α → Bool} (a : α) (l : List α) (h : p a = false) :
    (a :: l).dropWhile p = a :: l := by
  simp [List.dropWhile_cons, h]

theorem dropWhile_append_all {p : α → Bool} (xs ys : List α)
    (h : ∀ a ∈ xs, p a = true) : (xs ++ ys).dropWhile p = ys.dropWhile p := by
  induction xs with
  | nil => rfl
  | cons a as ih =>
    rw [List.cons_append, dropWhile_cons_true a _ (h a (by simp))]
    exact ih fun b hb => h b (by simp [hb])

theorem pyLStrip_cons_false (a : Char) (s : Str) (h : pySpace a = false) :
    pyLStrip (a :: s) = a :: s := dropWhile_cons_false a s h

theorem pyLStrip_spaces_append (ws s : Str) (h : ∀ c ∈ ws, pySpace c = true) :
    pyLStrip (ws ++ s) = pyLStrip s := dropWhile_append_all ws s h

theorem pyRStrip_append_nospace (xs ys : Str) (hne : ys ≠ [])
    (h : ∀ c ∈ ys, pySpace c = false) : pyRStrip (xs ++ ys) = xs ++ ys := by
  unfold pyRStrip
  cases hys : ys.reverse with
  | nil => exact absurd (by simpa using congrArg List.reverse hys) hne
  | cons c t =>
    have hc : c ∈ ys := List.mem_reverse.mp (hys ▸ List.mem_cons_self c t)
    rw [List.reverse_append, hys, List.cons_append, dropWhile_cons_false _ _ (h c hc),
      ← List.cons_append, ← hys, ← List.reverse_append, List.reverse_reverse]

theorem pyRStrip_append_spaces (s ws : Str) (h : ∀ c ∈ ws, pySpace c = true) :
    pyRStrip (s ++ ws) = pyRStrip s := by
  unfold pyRStrip
  rw [List.reverse_append, dropWhile_append_all _ _ fun a ha => h a (List.mem_reverse.mp ha)]

theorem pyRStrip_nospace (s : Str) (h : ∀ c ∈ s, pySpace c = false) :
    pyRStrip s = s := by
  cases s with
  | nil => rfl
  | cons a t => exact pyRStrip_append_nospace [] (a :: t) (by simp) h

theorem pyStrip_nospace (s : Str) (h : ∀ c ∈ s, pySpace c = false) :
    pyStrip s = s := by
  unfold pyStrip
  rw [pyRStrip_nospace s h]
  cases s with
  | nil => rfl
  | cons a t => exact pyLStrip_cons_false a t (h a (by simp))

theorem pyStrip_pad (ws1 p ws2 : Str) (h1 : ∀ c ∈ ws1, pySpace c = true)
    (h2 : ∀ c ∈ ws2, pySpace c = true) (hp : p ≠ [])
    (hnp : ∀ c ∈ p, pySpace c = false) : pyStrip (ws1 ++ p ++ ws2) = p := by
  unfold pyStrip
  rw [pyRStrip_append_spaces (ws1 ++ p) ws2 h2, pyRStrip_append_nospace _ _ hp hnp,
    pyLStrip_spaces_append _ _ h1]
  cases p with
  | nil => rfl
  | cons a t => exact pyLStrip_cons_false a t (hnp a (by simp))

theorem pySplitChar_ne_nil (sep : Char) (s : Str) : pySplitChar sep s ≠ [] := by
  cases s with
  | nil => simp [pySplitChar]
  | cons c rest =>
    simp only [pySplitChar]
    split <;> simp

theorem pySplitChar_not_mem (sep : Char) (s : Str) (h : sep ∉ s) :
    pySplitChar sep s = [s] := by
  induction s with
  | nil => rfl
  | cons c rest ih =>
    have hc : ¬ c = sep := fun e => h (e ▸ List.mem_cons_self c rest)
    rw [show pySplitChar sep (c :: rest) =
        (c :: (pySplitChar sep rest).headD []) :: (pySplitChar sep rest).tail by
      simp [pySplitChar, hc]]
    rw [ih fun hm => h (List.mem_cons_of_mem _ hm)]
    rfl

theorem pySplitChar_append_sep (sep : Char) (xs ys : Str) (h : sep ∉ xs) :
    pySplitChar sep (xs ++ sep :: ys) = xs :: pySplitChar sep ys := by
  induction xs with
  | nil => simp [pySplitChar]
  | cons c t ih =>
    have hc : ¬ c = sep := fun e => h (e ▸ List.mem_cons_self c t)
    rw [List.cons_append,
      show pySplitChar sep (c :: (t ++ sep :: ys)) =
        (c :: (pySplitChar sep (t ++ sep :: ys)).headD []) ::
          (pySplitChar sep (t ++ sep :: ys)).tail by
      simp [pySplitChar, hc]]
    rw [ih fun hm => h (List.mem_cons_of_mem _ hm)]
    rfl

theorem mem_pySplitChar_not_sep (sep : Char) (s : Str) (l : Str)
    (h : l ∈ pySplitChar sep s) : sep ∉ l := by
  induction s generalizing l with
  | nil =>
    simp [pySplitChar] at h
    simp [h]
  | cons c rest ih =>
    by_cases hc : c = sep
    · subst hc
      simp only [pySplitChar, if_pos rfl] at h
      rcases List.mem_cons.mp h with he | hm
      · simp [he]
      · exact ih l hm
    · simp only [pySplitChar, if_neg hc] at h
      obtain ⟨hd, tl, hr⟩ := List.exists_cons_of_ne_nil (pySplitChar_ne_nil sep rest)
      rw [hr] at h
      rcases List.mem_cons.mp h with he | hm
      · subst he
        intro hmem
        rcases List.mem_cons.mp hmem with he2 | hm2
        · exact hc he2.symm
        · exact ih hd (by rw [hr]; exact List.mem_cons_self hd tl) hm2
      · exact ih l (by rw [hr]; exact List.mem_cons_of_mem hd hm)

theorem pyJoin_split (sep : Char) (ls : List Str) (hne : ls ≠ [])
    (h : ∀ l ∈ ls, sep ∉ l) : pySplitChar sep (pyJoin [sep] ls) = ls := by
  induction ls with
  | nil => exact absurd rfl hne
  | cons p ps ih =>
    cases ps with
    | nil =>
      rw [show pyJoin [sep] [p] = p from rfl]
      exact pySplitChar_not_mem sep p (h p (by simp))
    | cons q rest =>
      rw [show pyJoin [sep] (p :: q :: rest) = p ++ [sep] ++ pyJoin [sep] (q :: rest) from rfl,
        List.append_assoc, List.singleton_append,
        pySplitChar_append_sep sep p _ (h p (by simp)),
        ih (by simp) fun l hl => h l (List.mem_cons_of_mem p hl)]

theorem findFirstIdx_lt_length {p : α → Bool} {l : List α} {i : Nat}
    (h : findFirstIdx p l = some i) : i < l.length := by
  induction l generalizing i with
  | nil => simp [findFirstIdx] at h
  | cons a as ih =>
    by_cases ha : p a = true
    · simp [findFirstIdx, ha] at h
      simp [← h]
    · rw [findFirstIdx, if_neg ha] at h
      cases hf : findFirstIdx p as with
      | none => rw [hf] at h; simp at h
      | some j =>
        rw [hf] at h
        simp at h
        subst h
        simpa using Nat.succ_lt_succ (ih hf)

theorem findFirstIdx_set_same {p : α → Bool} {l : List α} {i : Nat} {a : α}
    (h : findFirstIdx p l = some i) (ha : p a = true) :
    findFirstIdx p (l.set i a) = some i := by
  induction l generalizing i with
  | nil => simp [findFirstIdx] at h
  | cons b bs ih =>
    by_cases hb : p b = true
    · simp [findFirstIdx, hb] at h
      subst h
      simp [List.set, findFirstIdx, ha]
    · rw [findFirstIdx, if_neg hb] at h
      cases hf : findFirstIdx p bs with
      | none => rw [hf] at h; simp at h
      | some j =>
        rw [hf] at h
        simp at h
        subst h
        rw [show (b :: bs).set (j + 1) a = b :: bs.set j a from rfl,
          findFirstIdx, if_neg hb, ih hf]
        rfl

theorem mem_of_mem_set {l : List α} {i : Nat} {a b : α} (h : b ∈ l.set i a) :
    b = a ∨ b ∈ l := by
  induction l generalizing i with
  | nil => simp [List.set] at h
  | cons c t ih =>
    cases i with
    | zero =>
      rcases List.mem_cons.mp h with he | hm
      · exact Or.inl he
      · exact Or.inr (List.mem_cons_of_mem c hm)
    | succ j =>
      rcases List.mem_cons.mp h with he | hm
      · exact Or.inr (he ▸ List.mem_cons_self c t)
      · rcases ih hm with he2 | hm2
        · exact Or.inl he2
        · exact Or.inr (List.mem_cons_of_mem c hm2)

theorem isPrefixOf_append_left : ∀ l t : Str, l.isPrefixOf (l ++ t) = true := by
  intro l t
  induction l with
  | nil => simp [List.isPrefixOf]
  | cons c r ih => simp [List.isPrefixOf, ih]

theorem exists_append_of_isPrefixOf : ∀ {l s : Str}, l.isPrefixOf s = true →
    ∃ t, s = l ++ t := by
  intro l
  induction l with
  | nil => exact fun {s} _ => ⟨s, rfl⟩
  | cons c r ih =>
    intro s h
    cases s with
    | nil => simp [List.isPrefixOf] at h
    | cons b bs =>
      simp only [List.isPrefixOf, Bool.and_eq_true, beq_iff_eq] at h
      obtain ⟨t, ht⟩ := ih h.2
      exact ⟨t, by rw [ht, h.1, List.cons_append]⟩

theorem pyInStr_of_sub (pat s : Str) (h : pat <:+: s) : pyInStr pat s = true := by
  obtain ⟨pre, post, hs⟩ := h
  subst hs
  induction pre with
  | nil =>
    rw [List.nil_append]
    cases hp : pat with
    | nil => cases post <;> simp [pyInStr, List.isPrefixOf]
    | cons c r =>
      rw [show pyInStr (c :: r) (c :: r ++ post) =
        ((c :: r).isPrefixOf (c :: (r ++ post)) || pyInStr (c :: r) (r ++ post)) from rfl]
      rw [show c :: (r ++ post) = (c :: r) ++ post from rfl, isPrefixOf_append_left]
      simp
  | cons c pre' ih =>
    rw [show (c :: pre') ++ pat ++ post = c :: (pre' ++ pat ++ post) from rfl]
    rw [show pyInStr pat (c :: (pre' ++ pat ++ post)) =
      (pat.isPrefixOf (c :: (pre' ++ pat ++ post)) || pyInStr pat (pre' ++ pat ++ post)) from rfl]
    rw [ih]
    simp

theorem pyJoin_cons_exists (sep p : Str) (ps : List Str) :
    ∃ t, pyJoin sep (p :: ps) = p ++ t := by
  cases ps with
  | nil => exact ⟨[], by simp [pyJoin]⟩
  | cons q rest => exact ⟨sep ++ pyJoin sep (q :: rest), by simp [pyJoin]⟩

theorem mem_pyJoin {c : Char} (sep : Str) (ps : List Str) (h : c ∈ pyJoin sep ps) :
    c ∈ sep ∨ ∃ p ∈ ps, c ∈ p := by
  induction ps with
  | nil => simp [pyJoin] at h
  | cons p ps ih =>
    cases ps with
    | nil => exact Or.inr ⟨p, by simp, by simpa [pyJoin] using h⟩
    | cons q rest =>
      rw [show pyJoin sep (p :: q :: rest) = p ++ sep ++ pyJoin sep (q :: rest) from rfl] at h
      rcases List.mem_append.mp h with h1 | h2
      · rcases List.mem_append.mp h1 with hp | hsep
        · exact Or.inr ⟨p, by simp, hp⟩
        · exact Or.inl hsep
      · rcases ih h2 with hsep | ⟨p', hp', hc⟩
        · exact Or.inl hsep
        · exact Or.inr ⟨p', List.mem_cons_of_mem p hp', hc⟩

theorem sub_pyJoin (l : Str) (sep : Str) (ls : List Str) (h : l ∈ ls) :
    l <:+: pyJoin sep ls := by
  induction ls with
  | nil => simp at h
  | cons p ps ih =>
    cases ps with
    | nil =>
      simp at h
      exact h ▸ List.infix_refl l
    | cons q rest =>
      rcases List.mem_cons.mp h with he | hm
      · subst he
        exact ⟨[], sep ++ pyJoin sep (q :: rest), by simp [pyJoin]⟩
      · obtain ⟨pre, post, hj⟩ := ih hm
        exact ⟨p ++ sep ++ pre, post, by rw [show pyJoin sep (p :: q :: rest) =
          p ++ sep ++ pyJoin sep (q :: rest) from rfl, ← hj]; simp⟩

theorem replaceDrop1_not_mem (a : Char) (s : Str) (h : a ∉ s) :
    replaceDrop1 a s = s :=
  List.filter_eq_self.mpr fun c hc => by
    simp only [decide_eq_true_eq]
    exact fun e => h (e ▸ hc)

theorem replaceDrop1_cons_self (a : Char) (s : Str) :
    replaceDrop1 a (a :: s) = replaceDrop1 a s := by
  simp [replaceDrop1]

theorem replaceDrop1_cons_ne {c a : Char} (s : Str) (h : c ≠ a) :
    replaceDrop1 a (c :: s) = c :: replaceDrop1 a s := by
  simp [replaceDrop1, h]

theorem replaceDrop2_cons_ne {c a : Char} (b : Char) (s : Str) (h : c ≠ a) :
    replaceDrop2 a b (c :: s) = c :: replaceDrop2 a b s := by
  cases s with
  | nil => rfl
  | cons d r =>
    rw [show replaceDrop2 a b (c :: d :: r) =
      (if c = a ∧ d = b then replaceDrop2 a b r else c :: replaceDrop2 a b (d :: r)) from rfl]
    rw [if_neg fun hc => h hc.1]

theorem replaceDrop2_not_mem (a b : Char) (s : Str) (h : a ∉ s) :
    replaceDrop2 a b s = s := by
  induction s with
  | nil => rfl
  | cons c rest ih =>
    have hc : c ≠ a := fun e => h (e ▸ List.mem_cons_self c rest)
    rw [replaceDrop2_cons_ne b rest hc, ih fun hm => h (List.mem_cons_of_mem _ hm)]

theorem replaceDrop2_cons₂ (a b : Char) (s : Str) :
    replaceDrop2 a b (a :: b :: s) = replaceDrop2 a b s := by
  simp [replaceDrop2]

theorem ne_of_goodChar {c : Char} (x : Char) (hx : goodChar x = false)
    (h : goodChar c = true) : c ≠ x := by
  intro e
  rw [e, hx] at h
  cases h

theorem goodChar_not_space {c : Char} (h : goodChar c = true) : pySpace c = false := by
  by_contra hc
  rw [Bool.not_eq_false] at hc
  have hd : c = ' ' ∨ c = '\t' ∨ c = '\n' ∨ c = '\r' ∨ c = '\x0b' ∨ c = '\x0c' := by
    simpa [pySpace, or_assoc] using hc
  rcases hd with e | e | e | e | e | e <;> subst e <;> exact absurd h (by decide)

theorem partChar_not_space {c : Char} (h : partChar c = true) : pySpace c = false := by
  have hd : goodChar c = true ∨ c = ':' ∨ c = ',' := by
    simpa [partChar, or_assoc] using h
  rcases hd with h2 | e | e
  · exact goodChar_not_space h2
  · subst e; decide
  · subst e; decide

theorem ne_of_partChar {c : Char} (x : Char) (hx : partChar x = false)
    (h : partChar c = true) : c ≠ x := by
  intro e
  rw [e, hx] at h
  cases h

theorem ne_of_mlineChar {c : Char} (x : Char) (hx : mlineChar x = false)
    (h : mlineChar c = true) : c ≠ x := by
  intro e
  rw [e, hx] at h
  cases h

theorem goodChar_partChar {c : Char} (h : goodChar c = true) : partChar c = true := by
  simp [partChar, h]

theorem partChar_mlineChar {c : Char} (h : partChar c = true) : mlineChar c = true := by
  simp [mlineChar, h]


theorem isPrefixOf_cons_cons (a b : Char) (as bs : Str) :
    (a :: as).isPrefixOf (b :: bs) = (a == b && as.isPrefixOf bs) := rfl

theorem contains_of_mem {l : Str} {a : Char} (h : a ∈ l) : l.contains a = true :=
  List.elem_iff.mpr h

theorem takeWhile_append_not {p : α → Bool} (xs : List α) (a : α) (ys : List α)
    (hxs : ∀ x ∈ xs, p x = true) (ha : p a = false) :
    (xs ++ a :: ys).takeWhile p = xs := by
  induction xs with
  | nil => simp [List.takeWhile_cons, ha]
  | cons x t ih =>
    rw [List.cons_append, List.takeWhile_cons, hxs x (by simp), if_pos rfl,
      ih fun y hy => hxs y (by simp [hy])]

theorem pySplitFirst_keyval (key v : Str) (hk : ':' ∉ key) :
    pySplitFirst ':' (key ++ ':' :: v) = [key, v] := by
  unfold pySplitFirst
  have htake : (key ++ ':' :: v).takeWhile (· ≠ ':') = key := by
    refine takeWhile_append_not key ':' v (fun x hx => ?_) (by simp)
    simp only [decide_eq_true_eq]
    exact fun e => hk (e ▸ hx)
  rw [htake]
  have hlen : (key ++ ':' :: v).length = key.length + (v.length + 1) := by
    simp [List.length_append]
  rw [if_neg (by rw [hlen]; omega)]
  have hdrop : (key ++ ':' :: v).drop (key.length + 1) = v := by
    rw [show key ++ ':' :: v = (key ++ [':']) ++ v by simp,
      show key.length + 1 = (key ++ [':']).length by simp]
    exact List.drop_left _ _
  rw [hdrop]

/-! ### Enum string facts -/

theorem toolOfStringQ_str (t : AITool) : AITool.ofString? t.str = some t := by
  cases t <;> rfl

theorem confOfStringQ_str (c : Confidence) : Confidence.ofString? c.str = some c := by
  cases c <;> rfl

theorem toolOfStringD_str (t : AITool) : AITool.ofStringD t.str = t := by
  cases t <;> rfl

theorem toolStr_good (t : AITool) : ∀ c ∈ t.str, goodChar c = true := by
  cases t <;> decide

theorem confStr_good (c : Confidence) : ∀ x ∈ c.str, goodChar x = true := by
  cases c <;> decide

theorem toolStr_ne_nil (t : AITool) : t.str ≠ [] := by
  cases t <;> decide

theorem confStr_ne_nil (c : Confidence) : c.str ≠ [] := by
  cases c <;> decide

theorem toolOfStringD_eq_other (s : Str) (h : AITool.ofString? s = none) :
    AITool.ofStringD s = .other := by
  simp [AITool.ofStringD, h]

theorem toolOfStringQ_eq_none_iff (s : Str) : AITool.ofString? s = none ↔
    s ∉ ["claude".data, "copilot".data, "chatgpt".data, "gemini".data,
         "cursor".data, "other".data] := by
  unfold AITool.ofString?
  split_ifs <;> simp_all

theorem confOfStringQ_eq_none_iff (s : Str) : Confidence.ofString? s = none ↔
    s ∉ ["high".data, "med".data, "low".data] := by
  unfold Confidence.ofString?
  split_ifs <;> simp_all

/-! ### Step lemmas for the part loop of `parse_comment` -/

theorem applyPart_first (m : InlineMetadata) (toolS confS : Str)
    (ht : ':' ∉ toolS) (hc : ':' ∉ confS) (c : Confidence)
    (hcs : Confidence.ofString? confS = some c) :
    applyPart m (aiKey ++ toolS ++ ':' :: confS)
      = { m with tool := some (AITool.ofStringD toolS), confidence := some c } := by
  have hpre : aiKey.isPrefixOf (aiKey ++ toolS ++ ':' :: confS) = true := by
    rw [List.append_assoc]
    exact isPrefixOf_append_left aiKey _
  have hsplit : pySplitChar ':' (aiKey ++ toolS ++ ':' :: confS)
      = ["ai".data, toolS, confS] := by
    rw [List.append_assoc,
      show aiKey ++ (toolS ++ ':' :: confS) = "ai".data ++ ':' :: (toolS ++ ':' :: confS)
        from rfl,
      pySplitChar_append_sep ':' _ _ (by decide),
      pySplitChar_append_sep ':' _ _ ht,
      pySplitChar_not_mem ':' _ hc]
  simp only [applyPart, hpre, if_true, hsplit]
  simp [List.getD, hcs]

theorem aiKey_not_prefixOf_head {c : Char} (h : c ≠ 'a') (t : Str) :
    aiKey.isPrefixOf (c :: t) = false := by
  rw [show aiKey = 'a' :: "i:".data from rfl, isPrefixOf_cons_cons]
  have : ('a' == c) = false := by
    simp only [beq_eq_false_iff_ne, ne_eq]
    exact fun e => h e.symm
  simp [this]

theorem applyPart_trace (m : InlineMetadata) (v : Str)
    (hv : ∀ c ∈ v, pySpace c = false) :
    applyPart m ("trace:".data ++ v) = { m with trace := some v } := by
  have hnp : aiKey.isPrefixOf ("trace:".data ++ v) = false :=
    aiKey_not_prefixOf_head (by decide) _
  have hcont : ("trace:".data ++ v).contains ':' = true :=
    contains_of_mem (List.mem_append.mpr (Or.inl (by decide)))
  have hsplit : pySplitFirst ':' ("trace:".data ++ v) = ["trace".data, v] := by
    rw [show ("trace:".data ++ v : Str) = "trace".data ++ ':' :: v from rfl]
    exact pySplitFirst_keyval _ _ (by decide)
  simp only [applyPart, hnp, Bool.false_eq_true, if_false, hcont, if_true, hsplit]
  rw [show pyStrip "trace".data = "trace".data by decide, pyStrip_nospace v hv]
  simp

theorem applyPart_test (m : InlineMetadata) (v : Str)
    (hv : ∀ c ∈ v, pySpace c = false) :
    applyPart m ("test:".data ++ v)
      = { m with tests := some ((pySplitChar ',' v).map pyStrip) } := by
  have hnp : aiKey.isPrefixOf ("test:".data ++ v) = false :=
    aiKey_not_prefixOf_head (by decide) _
  have hcont : ("test:".data ++ v).contains ':' = true :=
    contains_of_mem (List.mem_append.mpr (Or.inl (by decide)))
  have hsplit : pySplitFirst ':' ("test:".data ++ v) = ["test".data, v] := by
    rw [show ("test:".data ++ v : Str) = "test".data ++ ':' :: v from rfl]
    exact pySplitFirst_keyval _ _ (by decide)
  simp only [applyPart, hnp, Bool.false_eq_true, if_false, hcont, if_true, hsplit]
  rw [show pyStrip "test".data = "test".data by decide, pyStrip_nospace v hv]
  simp

theorem applyPart_reviewed (m : InlineMetadata) (v : Str)
    (hv : ∀ c ∈ v, pySpace c = false) :
    applyPart m ("reviewed:".data ++ v) = { m with reviewed := some v } := by
  have hnp : aiKey.isPrefixOf ("reviewed:".data ++ v) = false :=
    aiKey_not_prefixOf_head (by decide) _
  have hcont : ("reviewed:".data ++ v).contains ':' = true :=
    contains_of_mem (List.mem_append.mpr (Or.inl (by decide)))
  have hsplit : pySplitFirst ':' ("reviewed:".data ++ v) = ["reviewed".data, v] := by
    rw [show ("reviewed:".data ++ v : Str) = "reviewed".data ++ ':' :: v from rfl]
    exact pySplitFirst_keyval _ _ (by decide)
  simp only [applyPart, hnp, Bool.false_eq_true, if_false, hcont, if_true, hsplit]
  rw [show pyStrip "reviewed".data = "reviewed".data by decide, pyStrip_nospace v hv]
  simp


/-! ### Character-class bridges for whole tag bodies -/

theorem mlineChar_marker_free {c : Char} (h : mlineChar c = true) :
    c ≠ '#' ∧ c ≠ '/' ∧ c ≠ '*' :=
  ⟨ne_of_mlineChar '#' (by decide) h, ne_of_mlineChar '/' (by decide) h,
   ne_of_mlineChar '*' (by decide) h⟩

theorem mem_join_parts (ps : List Str)
    (h : ∀ p ∈ ps, ∀ c ∈ p, partChar c = true) :
    ∀ c ∈ pyJoin " | ".data ps, mlineChar c = true := by
  intro c hc
  rcases mem_pyJoin " | ".data ps hc with hsep | ⟨p, hp, hcp⟩
  · rw [show (" | ".data : Str) = [' ', '|', ' '] from rfl] at hsep
    have hd : c = ' ' ∨ c = '|' ∨ c = ' ' := by simpa using hsep
    rcases hd with e | e | e <;> rw [e] <;> decide
  · exact partChar_mlineChar (h p hp c hcp)

theorem mem_join_comma (ts : List Str) (h : ∀ t ∈ ts, GoodIdent t) :
    ∀ c ∈ pyJoin [','] ts, partChar c = true := by
  intro c hc
  rcases mem_pyJoin [','] ts hc with hsep | ⟨p, hp, hcp⟩
  · have e : c = ',' := by simpa using hsep
    rw [e]; decide
  · exact goodChar_partChar ((h p hp).2 c hcp)

theorem join_comma_ne_nil (ts : List Str) (hne : ts ≠ [])
    (h : ∀ t ∈ ts, GoodIdent t) : pyJoin [','] ts ≠ [] := by
  cases ts with
  | nil => exact absurd rfl hne
  | cons p ps =>
    obtain ⟨t, ht⟩ := pyJoin_cons_exists [','] p ps
    rw [ht]
    have hp : p ≠ [] := (h p (by simp)).1
    cases p with
    | nil => exact absurd rfl hp
    | cons a r => simp

theorem map_pyStrip_nospace (ts : List Str)
    (h : ∀ t ∈ ts, ∀ c ∈ t, pySpace c = false) : ts.map pyStrip = ts := by
  induction ts with
  | nil => rfl
  | cons t rest ih =>
    rw [List.map_cons, pyStrip_nospace t (h t (by simp)),
      ih fun u hu => h u (by simp [hu])]

theorem split_join_comma (ts : List Str) (hne : ts ≠ [])
    (h : ∀ t ∈ ts, GoodIdent t) :
    (pySplitChar ',' (pyJoin [','] ts)).map pyStrip = ts := by
  rw [pyJoin_split ',' ts hne fun l hl hmem =>
    absurd ((h l hl).2 ',' hmem) (by decide)]
  exact map_pyStrip_nospace ts fun t ht c hc =>
    goodChar_not_space ((h t ht).2 c hc)

/-! ### Splitting a spaced `|`-joined body back into stripped parts -/

theorem splitBar_join : ∀ ps : List Str, ps ≠ [] →
    (∀ p ∈ ps, p ≠ [] ∧ ∀ c ∈ p, partChar c = true) →
    ∀ ws : Str, (∀ c ∈ ws, pySpace c = true) →
    (pySplitChar '|' (ws ++ pyJoin " | ".data ps)).map pyStrip = ps := by
  intro ps
  induction ps with
  | nil => exact fun h => absurd rfl h
  | cons p ps ih =>
    intro _ hgood ws hws
    obtain ⟨hp, hpc⟩ := hgood p (by simp)
    have hnosp : ∀ c ∈ p, pySpace c = false := fun c hc => partChar_not_space (hpc c hc)
    have hnobar : '|' ∉ ws ++ p := by
      intro hmem
      rcases List.mem_append.mp hmem with h1 | h2
      · exact absurd (hws _ h1) (by decide)
      · exact absurd (hpc _ h2) (by decide)
    cases ps with
    | nil =>
      rw [show pyJoin " | ".data [p] = p from rfl, pySplitChar_not_mem '|' _ hnobar,
        List.map_cons, List.map_nil]
      have hs : pyStrip (ws ++ p) = p := by
        have := pyStrip_pad ws p [] hws (by simp) hp hnosp
        simpa using this
      rw [hs]
    | cons q rest =>
      have hshape : ws ++ pyJoin " | ".data (p :: q :: rest)
          = (ws ++ p ++ [' ']) ++ '|' :: (' ' :: pyJoin " | ".data (q :: rest)) := by
        rw [show pyJoin " | ".data (p :: q :: rest)
          = p ++ " | ".data ++ pyJoin " | ".data (q :: rest) from rfl,
          show (" | ".data : Str) = [' ', '|', ' '] from rfl]
        simp
      have hnobar2 : '|' ∉ ws ++ p ++ [' '] := by
        intro hmem
        rcases List.mem_append.mp hmem with h1 | h2
        · exact hnobar h1
        · simp at h2
      rw [hshape, pySplitChar_append_sep '|' _ _ hnobar2, List.map_cons]
      have hhead : pyStrip (ws ++ p ++ [' ']) = p :=
        pyStrip_pad ws p [' '] hws (by decide) hp hnosp
      rw [hhead,
        show (' ' :: pyJoin " | ".data (q :: rest) : Str)
          = [' '] ++ pyJoin " | ".data (q :: rest) from rfl,
        ih (by simp) (fun r hr => hgood r (by simp [hr])) [' '] (by decide)]

/-! ### The marker-stripping pipeline on an encoded tag line -/

theorem parseClean_tag (style m xs ys : Str)
    (hsty : style = "#".data ∨ style = "//".data)
    (hm : ∀ c ∈ m, c ≠ '#' ∧ c ≠ '/' ∧ c ≠ '*')
    (hhead : ∃ t, m = 'a' :: t)
    (hdec : m = xs ++ ys) (hys : ys ≠ []) (hysn : ∀ c ∈ ys, pySpace c = false) :
    parseClean (style ++ ' ' :: m) = m := by
  obtain ⟨t, ht⟩ := hhead
  have hR : pyRStrip (style ++ ' ' :: m) = style ++ ' ' :: m := by
    rw [hdec, show style ++ ' ' :: (xs ++ ys) = (style ++ ' ' :: xs) ++ ys by simp]
    exact pyRStrip_append_nospace _ _ hys hysn
  have hfinal : pyStrip (' ' :: m) = m := by
    have hR2 : pyRStrip (' ' :: m) = ' ' :: m := by
      rw [hdec, show (' ' :: (xs ++ ys) : Str) = (' ' :: xs) ++ ys from rfl]
      exact pyRStrip_append_nospace _ _ hys hysn
    rw [pyStrip, hR2, ht, show (' ' :: 'a' :: t : Str) = [' '] ++ 'a' :: t from rfl,
      pyLStrip_spaces_append [' '] _ (by decide), pyLStrip_cons_false 'a' _ (by decide)]
  have hslash : '/' ∉ (' ' :: m : Str) := by
    intro hmem
    rcases List.mem_cons.mp hmem with e | h2
    · cases e
    · exact (hm _ h2).2.1 rfl
  have hstar : '*' ∉ (' ' :: m : Str) := by
    intro hmem
    rcases List.mem_cons.mp hmem with e | h2
    · cases e
    · exact (hm _ h2).2.2 rfl
  rcases hsty with e | e <;> subst e
  · have hstrip0 : pyStrip ("#".data ++ ' ' :: m) = "#".data ++ ' ' :: m := by
      rw [pyStrip, hR]
      exact pyLStrip_cons_false '#' _ (by decide)
    show pyStrip (replaceDrop2 '*' '/' (replaceDrop2 '/' '*' (replaceDrop2 '/' '/'
      (replaceDrop1 '#' (pyStrip ("#".data ++ ' ' :: m)))))) = m
    rw [hstrip0, show ("#".data ++ ' ' :: m : Str) = '#' :: ' ' :: m from rfl,
      replaceDrop1_cons_self, replaceDrop1_cons_ne m (by decide),
      replaceDrop1_not_mem '#' m fun hm2 => (hm _ hm2).1 rfl,
      replaceDrop2_not_mem '/' '/' _ hslash,
      replaceDrop2_not_mem '/' '*' _ hslash,
      replaceDrop2_not_mem '*' '/' _ hstar, hfinal]
  · have hstrip0 : pyStrip ("//".data ++ ' ' :: m) = "//".data ++ ' ' :: m := by
      rw [pyStrip, hR]
      exact pyLStrip_cons_false '/' _ (by decide)
    show pyStrip (replaceDrop2 '*' '/' (replaceDrop2 '/' '*' (replaceDrop2 '/' '/'
      (replaceDrop1 '#' (pyStrip ("//".data ++ ' ' :: m)))))) = m
    have hhash : '#' ∉ ("//".data ++ ' ' :: m : Str) := by
      intro hmem
      rcases List.mem_append.mp hmem with h1 | h2
      · simp at h1
      · rcases List.mem_cons.mp h2 with e | h3
        · cases e
        · exact (hm _ h3).1 rfl
    rw [hstrip0, replaceDrop1_not_mem '#' _ hhash,
      show ("//".data ++ ' ' :: m : Str) = '/' :: '/' :: ' ' :: m from rfl,
      replaceDrop2_cons₂, replaceDrop2_not_mem '/' '/' _ hslash,
      replaceDrop2_not_mem '/' '*' _ hslash,
      replaceDrop2_not_mem '*' '/' _ hstar, hfinal]


/-! ### Claim theorems -/

/-- C1: the spec says a hunk starting at a located tag on line N ends on the
line before the next located tag (line 19 for tags at 5 and 20 in a 30-line
file).  The code's `_find_hunk_end` returns `i - 1` where `i` is a 0-based
list index, so the first hunk of the scenario file ends at 18, one line
short of the claimed 19 (the no-next-tag hunk (20, 30) is as claimed). -/
theorem c1_find_ai_hunks_off_by_one :
    find_ai_hunks c1content
      = [(5, 18, { tool := some "claude".data, confidence := some "high".data }),
         (20, 30, { tool := some "copilot".data, confidence := some "low".data })] := by
  decide

/-- C2: the spec says two tags on consecutive lines N, N+1 give the first
tag the length-1 hunk (N, N), and hunks never overlap.  On two tags at
lines 1 and 2 the code instead produces the hunk (1, 0) whose end precedes
its start — an invalid range by the repository's own
`BlockMetadata.validate_lines` — refuting the claimed conjunction. -/
theorem c2_consecutive_tags_invalid_hunk :
    find_ai_hunks c2content
      = [(1, 0, { tool := some "claude".data, confidence := some "high".data }),
         (2, 3, { tool := some "copilot".data, confidence := some "low".data })] := by
  decide

/-- C4 counterexample: decoding keeps the `trace` value as one opaque
string.  On a line whose trace value is `SPEC-89,SPEC-90`, the decoded
`trace` is the single comma-containing string, not a comma-split sequence
of identifiers, while `test` on the same line is split — so trace is not
handled "like the test value" as the claim states. -/
theorem c4_trace_not_comma_split :
    InlineMetadata.parse_comment
      "# ai:claude:high | trace:SPEC-89,SPEC-90 | test:TC-1,TC-2".data
      = some { tool := some .claude, confidence := some .high,
               trace := some "SPEC-89,SPEC-90".data,
               tests := some ["TC-1".data, "TC-2".data] } ∧
    ',' ∈ ("SPEC-89,SPEC-90".data : Str) := by
  exact ⟨by decide, by decide⟩

/-- C4 amended: the claim's example line decodes to tool claude, confidence
high, tests comma-split to [TC-210, TC-211], reviewed kept opaque — but
trace is kept as the opaque string "SPEC-89", not wrapped or split into a
sequence. -/
theorem c4_amended_decode_example :
    InlineMetadata.parse_comment
      "# ai:claude:high | trace:SPEC-89 | test:TC-210,TC-211 | reviewed:2025-11-16:alice".data
      = some { tool := some .claude, confidence := some .high,
               trace := some "SPEC-89".data,
               tests := some ["TC-210".data, "TC-211".data],
               reviewed := some "2025-11-16:alice".data } := by
  decide

/-- C6: a line that does not start with `ai:` after marker stripping is
never decoded (`parse_comment` returns none) and never matched by the
scanner's tag regex (`matchTagCapture` returns none). -/
theorem c6_non_tag_lines_rejected :
    (∀ s : Str, aiKey.isPrefixOf (parseClean s) = false →
      InlineMetadata.parse_comment s = none) ∧
    (∀ s : Str, aiKey.isPrefixOf (scanClean s) = false → matchTagCapture s = none) := by
  constructor
  · intro s h
    simp [InlineMetadata.parse_comment, h]
  · intro s h
    simp [matchTagCapture, h]

/-- C6 witness: the plain code line `total = price` is rejected by both the
decoder and the scanner. -/
theorem c6_witness :
    InlineMetadata.parse_comment "total = price".data = none ∧
    matchTagCapture "total = price".data = none :=
  ⟨c6_non_tag_lines_rejected.1 "total = price".data (by decide),
   c6_non_tag_lines_rejected.2 "total = price".data (by decide)⟩

/-- C10: whenever the substring `ai:<tool>` occurs in the file but no line
matches the column-1 stamp pattern, `stamp_file` neither replaces nor
inserts anything: the output equals the input. -/
theorem c10_stamp_silent_noop (ext content : Str) (t : AITool) (c : Confidence)
    (trace tests : Option (List Str)) (reviewer : Option Str) (position today : Str)
    (hin : pyInStr (aiKey ++ t.str) content = true)
    (hnone : findFirstIdx stampLineMatch (pySplitChar '\n' content) = none) :
    stamp_file ext content t.str c.str trace tests reviewer position today
      = .ok content := by
  simp only [stamp_file, toolOfStringQ_str, confOfStringQ_str]
  simp only [stampContent, hin, if_true, hnone]

/-- C10 witness: the tag substring inside a string literal on a non-comment
line leaves the file untouched. -/
theorem c10_witness :
    stamp_file ".py".data "x = 'ai:claude'".data "claude".data "high".data
      none none none "top".data "2025-11-16".data
      = .ok "x = 'ai:claude'".data :=
  c10_stamp_silent_noop ".py".data "x = 'ai:claude'".data .claude .high
    none none none "top".data "2025-11-16".data (by decide) (by decide)


/-- C9: `stamp_file` fails with the invalid-tool error exactly when the
tool is not one of the six supported values; it fails with the
invalid-confidence error exactly when the tool is valid but the confidence
is not one of high/med/low; and with both valid it returns the transformed
content without error (validation precedes any content change). -/
theorem c9_stamp_validation (ext content tool confidence : Str)
    (trace tests : Option (List Str)) (reviewer : Option Str) (position today : Str) :
    (stamp_file ext content tool confidence trace tests reviewer position today
        = .error .invalidTool
      ↔ tool ∉ ["claude".data, "copilot".data, "chatgpt".data, "gemini".data,
                "cursor".data, "other".data]) ∧
    (stamp_file ext content tool confidence trace tests reviewer position today
        = .error .invalidConfidence
      ↔ tool ∈ ["claude".data, "copilot".data, "chatgpt".data, "gemini".data,
                "cursor".data, "other".data] ∧
        confidence ∉ ["high".data, "med".data, "low".data]) ∧
    (tool ∈ ["claude".data, "copilot".data, "chatgpt".data, "gemini".data,
             "cursor".data, "other".data] →
      confidence ∈ ["high".data, "med".data, "low".data] →
      stamp_file ext content tool confidence trace tests reviewer position today
        = .ok (stampContent ext content tool confidence trace tests reviewer
            position today)) := by
  cases h1 : AITool.ofString? tool with
  | none =>
    have hn := (toolOfStringQ_eq_none_iff tool).mp h1
    simp only [stamp_file, h1]
    exact ⟨by simp [hn], by simp [hn], fun hm _ => absurd hm hn⟩
  | some t =>
    have hmem : tool ∈ ["claude".data, "copilot".data, "chatgpt".data,
        "gemini".data, "cursor".data, "other".data] := by
      by_contra hn
      have he := (toolOfStringQ_eq_none_iff tool).mpr hn
      rw [he] at h1
      cases h1
    cases h2 : Confidence.ofString? confidence with
    | none =>
      have hcn := (confOfStringQ_eq_none_iff confidence).mp h2
      simp only [stamp_file, h1, h2]
      exact ⟨by simp [hmem], by simp [hmem, hcn], fun _ hc => absurd hc hcn⟩
    | some c =>
      have hcm : confidence ∈ ["high".data, "med".data, "low".data] := by
        by_contra hn
        have he := (confOfStringQ_eq_none_iff confidence).mpr hn
        rw [he] at h2
        cases h2
      simp only [stamp_file, h1, h2]
      exact ⟨by simp [hmem], by simp [hcm], fun _ _ => by simp⟩

/-- C9 witness: a bogus tool fails with the tool error, a bogus confidence
with the confidence error, and valid arguments stamp successfully. -/
theorem c9_witness :
    stamp_file ".py".data "x = 1".data "bogus".data "high".data none none none
      "top".data "d".data = .error .invalidTool ∧
    stamp_file ".py".data "x = 1".data "claude".data "wat".data none none none
      "top".data "d".data = .error .invalidConfidence ∧
    stamp_file ".py".data "x = 1".data "claude".data "high".data none none none
      "top".data "d".data
      = .ok (stampContent ".py".data "x = 1".data "claude".data "high".data
          none none none "top".data "d".data) :=
  ⟨(c9_stamp_validation ".py".data "x = 1".data "bogus".data "high".data
      none none none "top".data "d".data).1.mpr (by decide),
   (c9_stamp_validation ".py".data "x = 1".data "claude".data "wat".data
      none none none "top".data "d".data).2.1.mpr (by decide),
   (c9_stamp_validation ".py".data "x = 1".data "claude".data "high".data
      none none none "top".data "d".data).2.2 (by decide) (by decide)⟩


set_option maxHeartbeats 1000000 in
/-- C5: a well-formed tag line whose tool token is not one of the six
recognized values still decodes to a record, with the tool field set to the
fallback `other` — the decoder never rejects a line merely for an unknown
tool name. -/
theorem c5_unknown_tool_decodes_other (toolS : Str) (hg : GoodIdent toolS)
    (hun : toolS ∉ ["claude".data, "copilot".data, "chatgpt".data, "gemini".data,
        "cursor".data, "other".data]) (c : Confidence) :
    InlineMetadata.parse_comment ('#' :: ' ' :: (aiKey ++ toolS ++ ':' :: c.str))
      = some { tool := some AITool.other, confidence := some c } := by
  obtain ⟨hne, hgc⟩ := hg
  have hmp : ∀ x ∈ (aiKey ++ toolS ++ ':' :: c.str : Str), partChar x = true := by
    intro x hx
    rcases List.mem_append.mp hx with h1 | h2
    · rcases List.mem_append.mp h1 with ha | ht
      · have hd : x = 'a' ∨ x = 'i' ∨ x = ':' := by simpa [aiKey] using ha
        rcases hd with e | e | e <;> rw [e] <;> decide
      · exact goodChar_partChar (hgc x ht)
    · rcases List.mem_cons.mp h2 with e | hc2
      · rw [e]; decide
      · exact goodChar_partChar (confStr_good c x hc2)
  have hnosp : ∀ x ∈ (aiKey ++ toolS ++ ':' :: c.str : Str), pySpace x = false :=
    fun x hx => partChar_not_space (hmp x hx)
  have hmarker : ∀ x ∈ (aiKey ++ toolS ++ ':' :: c.str : Str),
      x ≠ '#' ∧ x ≠ '/' ∧ x ≠ '*' :=
    fun x hx => mlineChar_marker_free (partChar_mlineChar (hmp x hx))
  have hm_ne : (aiKey ++ toolS ++ ':' :: c.str : Str) ≠ [] := by simp [aiKey]
  have hclean : parseClean ('#' :: ' ' :: (aiKey ++ toolS ++ ':' :: c.str))
      = aiKey ++ toolS ++ ':' :: c.str := by
    exact parseClean_tag "#".data (aiKey ++ toolS ++ ':' :: c.str)
      [] (aiKey ++ toolS ++ ':' :: c.str) (Or.inl rfl) hmarker ⟨_, rfl⟩
      (by simp) hm_ne hnosp
  have hpre : aiKey.isPrefixOf (aiKey ++ toolS ++ ':' :: c.str) = true := by
    rw [List.append_assoc]
    exact isPrefixOf_append_left aiKey _
  have hsplitbar : pySplitChar '|' (aiKey ++ toolS ++ ':' :: c.str)
      = [aiKey ++ toolS ++ ':' :: c.str] :=
    pySplitChar_not_mem '|' _ fun hmem => absurd (hmp '|' hmem) (by decide)
  have ht : ':' ∉ toolS := fun hmem => absurd (hgc ':' hmem) (by decide)
  have hc : ':' ∉ c.str := fun hmem => absurd (confStr_good c ':' hmem) (by decide)
  simp only [InlineMetadata.parse_comment, hclean, hpre, if_true, hsplitbar,
    List.map_cons, List.map_nil, pyStrip_nospace _ hnosp, List.foldl]
  rw [applyPart_first emptyMeta toolS c.str ht hc c (confOfStringQ_str c),
    toolOfStringD_eq_other toolS ((toolOfStringQ_eq_none_iff toolS).mpr hun)]
  simp [emptyMeta]

/-- C5 witness: `# ai:weirdtool:high` decodes to a record with tool `other`
and confidence `high`. -/
theorem c5_witness :
    InlineMetadata.parse_comment "# ai:weirdtool:high".data
      = some { tool := some AITool.other, confidence := some Confidence.high } := by
  have h := c5_unknown_tool_decodes_other "weirdtool".data ⟨by decide, by decide⟩
    (by decide) Confidence.high
  have heq : ("# ai:weirdtool:high".data : Str)
      = '#' :: ' ' :: (aiKey ++ "weirdtool".data ++ ':' :: Confidence.high.str) := by
    decide
  rw [heq]
  exact h


/-! ### Master lemma: decoding an encoded tag body -/

theorem isEmpty_false_of_ne_nil {l : List α} (h : l ≠ []) : l.isEmpty = false := by
  cases l with
  | nil => exact absurd rfl h
  | cons a t => rfl

theorem pyJoin_concat_exists (sep : Str) :
    ∀ ps : List Str, ps ≠ [] → ∃ xs p, p ∈ ps ∧ pyJoin sep ps = xs ++ p := by
  intro ps
  induction ps with
  | nil => exact fun h => absurd rfl h
  | cons p ps ih =>
    intro _
    cases ps with
    | nil => exact ⟨[], p, by simp, by simp [pyJoin]⟩
    | cons q rest =>
      obtain ⟨xs, lp, hmem, heq⟩ := ih (by simp)
      refine ⟨p ++ sep ++ xs, lp, List.mem_cons_of_mem p hmem, ?_⟩
      rw [show pyJoin sep (p :: q :: rest) = p ++ sep ++ pyJoin sep (q :: rest) from rfl,
        heq]
      simp

theorem first_part_chars (toolS confS : Str)
    (h1 : ∀ x ∈ toolS, goodChar x = true) (h2 : ∀ x ∈ confS, goodChar x = true) :
    ∀ x ∈ (aiKey ++ toolS ++ ':' :: confS : Str), partChar x = true := by
  intro x hx
  rcases List.mem_append.mp hx with ha | hb
  · rcases List.mem_append.mp ha with h3 | h4
    · have hd : x = 'a' ∨ x = 'i' ∨ x = ':' := by simpa [aiKey] using h3
      rcases hd with e | e | e <;> rw [e] <;> decide
    · exact goodChar_partChar (h1 x h4)
  · rcases List.mem_cons.mp hb with e | h5
    · rw [e]; decide
    · exact goodChar_partChar (h2 x h5)

theorem optListPart_some (key : Str) (ts : List Str) :
    optListPart key (some ts)
      = if ts.isEmpty = true then [] else [key ++ pyJoin [','] ts] := rfl

theorem optListPart_none (key : Str) : optListPart key none = [] := rfl

theorem optRevPart_some (today rv : Str) :
    optRevPart today (some rv)
      = if rv.isEmpty = true then []
        else ["reviewed:".data ++ today ++ ':' :: nameOf rv] := rfl

theorem optRevPart_none (today : Str) : optRevPart today none = [] := rfl

theorem format_eq_join (tool confidence : Str) (trace tests : Option (List Str))
    (reviewer : Option Str) (today style : Str)
    (hsty : style ≠ "(*".data ∧ style ≠ "/*".data) :
    format_inline_metadata tool confidence trace tests reviewer today style
      = style ++ ' ' :: pyJoin " | ".data
          ([aiKey ++ tool ++ ':' :: confidence] ++
           optListPart "trace:".data trace ++ optListPart "test:".data tests ++
           optRevPart today reviewer) := by
  cases trace <;> cases tests <;> cases reviewer <;>
    simp only [format_inline_metadata, optListPart, optRevPart, nameOf] <;>
    rw [if_neg hsty.1, if_neg hsty.2]

set_option maxHeartbeats 1000000 in
theorem parse_comment_encoded (style : Str)
    (hsty : style = "#".data ∨ style = "//".data) (fp : Str) (restps : List Str)
    (hgood : ∀ p ∈ (aiKey ++ fp) :: restps, p ≠ [] ∧ ∀ ch ∈ p, partChar ch = true) :
    InlineMetadata.parse_comment
        (style ++ ' ' :: pyJoin " | ".data ((aiKey ++ fp) :: restps))
      = (if ((aiKey ++ fp) :: restps).foldl applyPart emptyMeta = emptyMeta then none
         else some (((aiKey ++ fp) :: restps).foldl applyPart emptyMeta)) := by
  obtain ⟨tl, htl⟩ := pyJoin_cons_exists " | ".data (aiKey ++ fp) restps
  have hmp : ∀ ch ∈ pyJoin " | ".data ((aiKey ++ fp) :: restps), mlineChar ch = true :=
    mem_join_parts _ fun p hp => (hgood p hp).2
  have hmarker : ∀ x ∈ pyJoin " | ".data ((aiKey ++ fp) :: restps),
      x ≠ '#' ∧ x ≠ '/' ∧ x ≠ '*' :=
    fun x hx => mlineChar_marker_free (hmp x hx)
  have hhead : ∃ u, pyJoin " | ".data ((aiKey ++ fp) :: restps) = 'a' :: u :=
    ⟨_, by rw [htl]; rfl⟩
  obtain ⟨xs, lp, hlpmem, heq⟩ :=
    pyJoin_concat_exists " | ".data ((aiKey ++ fp) :: restps) (by simp)
  have hclean : parseClean (style ++ ' ' :: pyJoin " | ".data ((aiKey ++ fp) :: restps))
      = pyJoin " | ".data ((aiKey ++ fp) :: restps) :=
    parseClean_tag style _ xs lp hsty hmarker hhead heq (hgood lp hlpmem).1
      fun ch hch => partChar_not_space ((hgood lp hlpmem).2 ch hch)
  have hpre : aiKey.isPrefixOf (pyJoin " | ".data ((aiKey ++ fp) :: restps)) = true := by
    rw [htl, List.append_assoc]
    exact isPrefixOf_append_left aiKey _
  have hsplit : (pySplitChar '|' (pyJoin " | ".data ((aiKey ++ fp) :: restps))).map pyStrip
      = (aiKey ++ fp) :: restps := by
    simpa using splitBar_join ((aiKey ++ fp) :: restps) (by simp) hgood [] (by simp)
  simp only [InlineMetadata.parse_comment, hclean, hpre, if_true, hsplit]


/-- C3 counterexample: the configured comment-style table includes `(*`
(OCaml) and `--` (SQL/Lua/Haskell), but `parse_comment` strips only `#`,
`//`, `/*`, `*/`; a record encoded with either style decodes to absent, so
`decode(encode(r, s), s) == r` fails for those configured styles. -/
theorem c3_block_styles_break_round_trip :
    InlineMetadata.parse_comment
      (format_inline_metadata "claude".data "high".data none none none
        "2025-11-16".data "(*".data) = none ∧
    InlineMetadata.parse_comment
      (format_inline_metadata "claude".data "high".data none none none
        "2025-11-16".data "--".data) = none :=
  ⟨by decide, by decide⟩

theorem if_isEmpty_false {β : Type} {l : List β} (h : l ≠ []) (a : Str) :
    (if l.isEmpty = true then ([] : List Str) else [a]) = [a] := by
  rw [isEmpty_false_of_ne_nil h]
  simp

set_option maxHeartbeats 2000000 in
/-- C3 amended: for the single-line styles the decoder can strip (`#` and
`//`), encoding a record with a valid tool and confidence and well-formed
identifier fields and decoding the line recovers the record: the tool and
confidence enums come back exactly, `tests` comes back as the same
sequence, `trace` comes back as the comma-joined opaque string (the decoder
stores trace unsplit), and `reviewed` comes back as `today:name` where
`name` is the reviewer up to any `@`.  Confidence is always emitted by the
encoder; trace, tests and reviewed are omitted exactly when absent (or
empty) and are recovered as absent then. -/
theorem c3_amended_round_trip (style : Str)
    (hsty : style = "#".data ∨ style = "//".data)
    (t : AITool) (c : Confidence)
    (trace tests : Option (List Str)) (reviewer : Option Str) (today : Str)
    (htr : ∀ l ∈ trace, l ≠ [] ∧ ∀ x ∈ l, GoodIdent x)
    (hte : ∀ l ∈ tests, l ≠ [] ∧ ∀ x ∈ l, GoodIdent x)
    (hrv : ∀ rv ∈ reviewer, GoodIdent (nameOf rv))
    (htd : GoodIdent today) :
    InlineMetadata.parse_comment
        (format_inline_metadata t.str c.str trace tests reviewer today style)
      = some { tool := some t, confidence := some c,
               trace := trace.map fun ts => pyJoin [','] ts,
               tests := tests,
               reviewed := reviewer.map fun rv => today ++ ':' :: nameOf rv } := by
  have hstyne : style ≠ "(*".data ∧ style ≠ "/*".data := by
    rcases hsty with e | e <;> subst e <;> exact ⟨by decide, by decide⟩
  have hfirst : (aiKey ++ (t.str ++ ':' :: c.str) : Str) ≠ [] ∧
      ∀ ch ∈ (aiKey ++ (t.str ++ ':' :: c.str) : Str), partChar ch = true := by
    refine ⟨by simp [aiKey], fun ch hch => ?_⟩
    rw [← List.append_assoc] at hch
    exact first_part_chars t.str c.str (toolStr_good t) (confStr_good c) ch hch
  have htc : ':' ∉ t.str := fun hm => absurd (toolStr_good t ':' hm) (by decide)
  have hcc : ':' ∉ c.str := fun hm => absurd (confStr_good c ':' hm) (by decide)
  rcases trace with _ | ts <;> rcases tests with _ | ss <;> rcases reviewer with _ | rv
  -- trace none, tests none, reviewer none
  · have hfmt2 : format_inline_metadata t.str c.str none none none today style
        = style ++ ' ' :: pyJoin " | ".data [aiKey ++ t.str ++ ':' :: c.str] := by
      rw [format_eq_join t.str c.str none none none today style hstyne]
      rfl
    rw [hfmt2, List.append_assoc aiKey t.str (':' :: c.str),
      parse_comment_encoded style hsty (t.str ++ ':' :: c.str) []
        (by intro p hp; simp at hp; subst hp; exact hfirst)]
    simp only [List.foldl]
    rw [← List.append_assoc aiKey t.str (':' :: c.str),
      applyPart_first emptyMeta t.str c.str htc hcc c (confOfStringQ_str c),
      toolOfStringD_str t, if_neg (by simp [emptyMeta])]
    simp [emptyMeta]
  -- trace none, tests none, reviewer some rv
  · have hrvg := hrv rv rfl
    have hrvne : rv ≠ [] := by
      intro e
      subst e
      exact absurd (by decide : nameOf [] = []) fun e2 => hrvg.1 e2
    have hrevP : ∀ ch ∈ ("reviewed:".data ++ (today ++ ':' :: nameOf rv) : Str),
        partChar ch = true := by
      intro ch hch
      rcases List.mem_append.mp hch with h1 | h2
      · exact (by decide : ∀ x ∈ ("reviewed:".data : Str), partChar x = true) ch h1
      · rcases List.mem_append.mp h2 with h3 | h4
        · exact goodChar_partChar (htd.2 ch h3)
        · rcases List.mem_cons.mp h4 with e | h5
          · rw [e]; decide
          · exact goodChar_partChar (hrvg.2 ch h5)
    have hfmt2 : format_inline_metadata t.str c.str none none (some rv) today style
        = style ++ ' ' :: pyJoin " | ".data
            [aiKey ++ t.str ++ ':' :: c.str,
             "reviewed:".data ++ today ++ ':' :: nameOf rv] := by
      rw [format_eq_join t.str c.str none none (some rv) today style hstyne]
      show style ++ ' ' :: pyJoin " | ".data
          ([aiKey ++ t.str ++ ':' :: c.str] ++
           [] ++
           [] ++
           (if rv.isEmpty = true then [] else ["reviewed:".data ++ today ++ ':' :: nameOf rv]))
        = _
      rw [if_isEmpty_false hrvne]
      rfl
    rw [hfmt2, List.append_assoc aiKey t.str (':' :: c.str),
      List.append_assoc "reviewed:".data today (':' :: nameOf rv),
      parse_comment_encoded style hsty (t.str ++ ':' :: c.str)
        ["reviewed:".data ++ (today ++ ':' :: nameOf rv)]
        (by
          intro p hp
          simp only [List.mem_cons, List.not_mem_nil, or_false] at hp
          rcases hp with e | e <;> subst e
          · exact hfirst
          · exact ⟨by simp, hrevP⟩)]
    simp only [List.foldl]
    rw [← List.append_assoc aiKey t.str (':' :: c.str),
      applyPart_first emptyMeta t.str c.str htc hcc c (confOfStringQ_str c),
      toolOfStringD_str t,
      applyPart_reviewed _ (today ++ ':' :: nameOf rv)
        (fun ch hch => partChar_not_space (by
          rcases List.mem_append.mp hch with h3 | h4
          · exact goodChar_partChar (htd.2 ch h3)
          · rcases List.mem_cons.mp h4 with e | h5
            · rw [e]; decide
            · exact goodChar_partChar (hrvg.2 ch h5))),
      if_neg (by simp [emptyMeta])]
    simp [emptyMeta]
  -- trace none, tests some ss, reviewer none
  · obtain ⟨hssne, hssg⟩ := hte ss rfl
    have hteP : ∀ ch ∈ ("test:".data ++ pyJoin [','] ss : Str), partChar ch = true := by
      intro ch hch
      rcases List.mem_append.mp hch with h1 | h2
      · exact (by decide : ∀ x ∈ ("test:".data : Str), partChar x = true) ch h1
      · exact mem_join_comma ss hssg ch h2
    have hfmt2 : format_inline_metadata t.str c.str none (some ss) none today style
        = style ++ ' ' :: pyJoin " | ".data
            [aiKey ++ t.str ++ ':' :: c.str, "test:".data ++ pyJoin [','] ss] := by
      rw [format_eq_join t.str c.str none (some ss) none today style hstyne]
      show style ++ ' ' :: pyJoin " | ".data
          ([aiKey ++ t.str ++ ':' :: c.str] ++
           [] ++
           (if ss.isEmpty = true then [] else ["test:".data ++ pyJoin [','] ss]) ++
           [])
        = _
      rw [if_isEmpty_false hssne]
      rfl
    rw [hfmt2, List.append_assoc aiKey t.str (':' :: c.str),
      parse_comment_encoded style hsty (t.str ++ ':' :: c.str)
        ["test:".data ++ pyJoin [','] ss]
        (by
          intro p hp
          simp only [List.mem_cons, List.not_mem_nil, or_false] at hp
          rcases hp with e | e <;> subst e
          · exact hfirst
          · exact ⟨by simp, hteP⟩)]
    simp only [List.foldl]
    rw [← List.append_assoc aiKey t.str (':' :: c.str),
      applyPart_first emptyMeta t.str c.str htc hcc c (confOfStringQ_str c),
      toolOfStringD_str t,
      applyPart_test _ (pyJoin [','] ss)
        (fun ch hch => partChar_not_space (mem_join_comma ss hssg ch hch)),
      split_join_comma ss hssne hssg, if_neg (by simp [emptyMeta])]
    simp [emptyMeta]
  -- trace none, tests some ss, reviewer some rv
  · obtain ⟨hssne, hssg⟩ := hte ss rfl
    have hrvg := hrv rv rfl
    have hrvne : rv ≠ [] := by
      intro e
      subst e
      exact absurd (by decide : nameOf [] = []) fun e2 => hrvg.1 e2
    have hteP : ∀ ch ∈ ("test:".data ++ pyJoin [','] ss : Str), partChar ch = true := by
      intro ch hch
      rcases List.mem_append.mp hch with h1 | h2
      · exact (by decide : ∀ x ∈ ("test:".data : Str), partChar x = true) ch h1
      · exact mem_join_comma ss hssg ch h2
    have hrevP : ∀ ch ∈ ("reviewed:".data ++ (today ++ ':' :: nameOf rv) : Str),
        partChar ch = true := by
      intro ch hch
      rcases List.mem_append.mp hch with h1 | h2
      · exact (by decide : ∀ x ∈ ("reviewed:".data : Str), partChar x = true) ch h1
      · rcases List.mem_append.mp h2 with h3 | h4
        · exact goodChar_partChar (htd.2 ch h3)
        · rcases List.mem_cons.mp h4 with e | h5
          · rw [e]; decide
          · exact goodChar_partChar (hrvg.2 ch h5)
    have hfmt2 : format_inline_metadata t.str c.str none (some ss) (some rv) today style
        = style ++ ' ' :: pyJoin " | ".data
            [aiKey ++ t.str ++ ':' :: c.str, "test:".data ++ pyJoin [','] ss,
             "reviewed:".data ++ today ++ ':' :: nameOf rv] := by
      rw [format_eq_join t.str c.str none (some ss) (some rv) today style hstyne]
      show style ++ ' ' :: pyJoin " | ".data
          ([aiKey ++ t.str ++ ':' :: c.str] ++
           [] ++
           (if ss.isEmpty = true then [] else ["test:".data ++ pyJoin [','] ss]) ++
           (if rv.isEmpty = true then [] else ["reviewed:".data ++ today ++ ':' :: nameOf rv]))
        = _
      rw [if_isEmpty_false hssne, if_isEmpty_false hrvne]
      rfl
    rw [hfmt2, List.append_assoc aiKey t.str (':' :: c.str),
      List.append_assoc "reviewed:".data today (':' :: nameOf rv),
      parse_comment_encoded style hsty (t.str ++ ':' :: c.str)
        ["test:".data ++ pyJoin [','] ss,
         "reviewed:".data ++ (today ++ ':' :: nameOf rv)]
        (by
          intro p hp
          simp only [List.mem_cons, List.not_mem_nil, or_false] at hp
          rcases hp with e | e | e <;> subst e
          · exact hfirst
          · exact ⟨by simp, hteP⟩
          · exact ⟨by simp, hrevP⟩)]
    simp only [List.foldl]
    rw [← List.append_assoc aiKey t.str (':' :: c.str),
      applyPart_first emptyMeta t.str c.str htc hcc c (confOfStringQ_str c),
      toolOfStringD_str t,
      applyPart_test _ (pyJoin [','] ss)
        (fun ch hch => partChar_not_space (mem_join_comma ss hssg ch hch)),
      split_join_comma ss hssne hssg,
      applyPart_reviewed _ (today ++ ':' :: nameOf rv)
        (fun ch hch => partChar_not_space (by
          rcases List.mem_append.mp hch with h3 | h4
          · exact goodChar_partChar (htd.2 ch h3)
          · rcases List.mem_cons.mp h4 with e | h5
            · rw [e]; decide
            · exact goodChar_partChar (hrvg.2 ch h5))),
      if_neg (by simp [emptyMeta])]
    simp [emptyMeta]
  -- trace some ts, tests none, reviewer none
  · obtain ⟨htsne, htsg⟩ := htr ts rfl
    have htrP : ∀ ch ∈ ("trace:".data ++ pyJoin [','] ts : Str), partChar ch = true := by
      intro ch hch
      rcases List.mem_append.mp hch with h1 | h2
      · exact (by decide : ∀ x ∈ ("trace:".data : Str), partChar x = true) ch h1
      · exact mem_join_comma ts htsg ch h2
    have hfmt2 : format_inline_metadata t.str c.str (some ts) none none today style
        = style ++ ' ' :: pyJoin " | ".data
            [aiKey ++ t.str ++ ':' :: c.str, "trace:".data ++ pyJoin [','] ts] := by
      rw [format_eq_join t.str c.str (some ts) none none today style hstyne]
      show style ++ ' ' :: pyJoin " | ".data
          ([aiKey ++ t.str ++ ':' :: c.str] ++
           (if ts.isEmpty = true then [] else ["trace:".data ++ pyJoin [','] ts]) ++
           [] ++
           [])
        = _
      rw [if_isEmpty_false htsne]
      rfl
    rw [hfmt2, List.append_assoc aiKey t.str (':' :: c.str),
      parse_comment_encoded style hsty (t.str ++ ':' :: c.str)
        ["trace:".data ++ pyJoin [','] ts]
        (by
          intro p hp
          simp only [List.mem_cons, List.not_mem_nil, or_false] at hp
          rcases hp with e | e <;> subst e
          · exact hfirst
          · exact ⟨by simp, htrP⟩)]
    simp only [List.foldl]
    rw [← List.append_assoc aiKey t.str (':' :: c.str),
      applyPart_first emptyMeta t.str c.str htc hcc c (confOfStringQ_str c),
      toolOfStringD_str t,
      applyPart_trace _ (pyJoin [','] ts)
        (fun ch hch => partChar_not_space (mem_join_comma ts htsg ch hch)),
      if_neg (by simp [emptyMeta])]
    simp [emptyMeta]
  -- trace some ts, tests none, reviewer some rv
  · obtain ⟨htsne, htsg⟩ := htr ts rfl
    have hrvg := hrv rv rfl
    have hrvne : rv ≠ [] := by
      intro e
      subst e
      exact absurd (by decide : nameOf [] = []) fun e2 => hrvg.1 e2
    have htrP : ∀ ch ∈ ("trace:".data ++ pyJoin [','] ts : Str), partChar ch = true := by
      intro ch hch
      rcases List.mem_append.mp hch with h1 | h2
      · exact (by decide : ∀ x ∈ ("trace:".data : Str), partChar x = true) ch h1
      · exact mem_join_comma ts htsg ch h2
    have hrevP : ∀ ch ∈ ("reviewed:".data ++ (today ++ ':' :: nameOf rv) : Str),
        partChar ch = true := by
      intro ch hch
      rcases List.mem_append.mp hch with h1 | h2
      · exact (by decide : ∀ x ∈ ("reviewed:".data : Str), partChar x = true) ch h1
      · rcases List.mem_append.mp h2 with h3 | h4
        · exact goodChar_partChar (htd.2 ch h3)
        · rcases List.mem_cons.mp h4 with e | h5
          · rw [e]; decide
          · exact goodChar_partChar (hrvg.2 ch h5)
    have hfmt2 : format_inline_metadata t.str c.str (some ts) none (some rv) today style
        = style ++ ' ' :: pyJoin " | ".data
            [aiKey ++ t.str ++ ':' :: c.str, "trace:".data ++ pyJoin [','] ts,
             "reviewed:".data ++ today ++ ':' :: nameOf rv] := by
      rw [format_eq_join t.str c.str (some ts) none (some rv) today style hstyne]
      show style ++ ' ' :: pyJoin " | ".data
          ([aiKey ++ t.str ++ ':' :: c.str] ++
           (if ts.isEmpty = true then [] else ["trace:".data ++ pyJoin [','] ts]) ++
           [] ++
           (if rv.isEmpty = true then [] else ["reviewed:".data ++ today ++ ':' :: nameOf rv]))
        = _
      rw [if_isEmpty_false htsne, if_isEmpty_false hrvne]
      rfl
    rw [hfmt2, List.append_assoc aiKey t.str (':' :: c.str),
      List.append_assoc "reviewed:".data today (':' :: nameOf rv),
      parse_comment_encoded style hsty (t.str ++ ':' :: c.str)
        ["trace:".data ++ pyJoin [','] ts,
         "reviewed:".data ++ (today ++ ':' :: nameOf rv)]
        (by
          intro p hp
          simp only [List.mem_cons, List.not_mem_nil, or_false] at hp
          rcases hp with e | e | e <;> subst e
          · exact hfirst
          · exact ⟨by simp, htrP⟩
          · exact ⟨by simp, hrevP⟩)]
    simp only [List.foldl]
    rw [← List.append_assoc aiKey t.str (':' :: c.str),
      applyPart_first emptyMeta t.str c.str htc hcc c (confOfStringQ_str c),
      toolOfStringD_str t,
      applyPart_trace _ (pyJoin [','] ts)
        (fun ch hch => partChar_not_space (mem_join_comma ts htsg ch hch)),
      applyPart_reviewed _ (today ++ ':' :: nameOf rv)
        (fun ch hch => partChar_not_space (by
          rcases List.mem_append.mp hch with h3 | h4
          · exact goodChar_partChar (htd.2 ch h3)
          · rcases List.mem_cons.mp h4 with e | h5
            · rw [e]; decide
            · exact goodChar_partChar (hrvg.2 ch h5))),
      if_neg (by simp [emptyMeta])]
    simp [emptyMeta]
  -- trace some ts, tests some ss, reviewer none
  · obtain ⟨htsne, htsg⟩ := htr ts rfl
    obtain ⟨hssne, hssg⟩ := hte ss rfl
    have htrP : ∀ ch ∈ ("trace:".data ++ pyJoin [','] ts : Str), partChar ch = true := by
      intro ch hch
      rcases List.mem_append.mp hch with h1 | h2
      · exact (by decide : ∀ x ∈ ("trace:".data : Str), partChar x = true) ch h1
      · exact mem_join_comma ts htsg ch h2
    have hteP : ∀ ch ∈ ("test:".data ++ pyJoin [','] ss : Str), partChar ch = true := by
      intro ch hch
      rcases List.mem_append.mp hch with h1 | h2
      · exact (by decide : ∀ x ∈ ("test:".data : Str), partChar x = true) ch h1
      · exact mem_join_comma ss hssg ch h2
    have hfmt2 : format_inline_metadata t.str c.str (some ts) (some ss) none today style
        = style ++ ' ' :: pyJoin " | ".data
            [aiKey ++ t.str ++ ':' :: c.str, "trace:".data ++ pyJoin [','] ts,
             "test:".data ++ pyJoin [','] ss] := by
      rw [format_eq_join t.str c.str (some ts) (some ss) none today style hstyne]
      show style ++ ' ' :: pyJoin " | ".data
          ([aiKey ++ t.str ++ ':' :: c.str] ++
           (if ts.isEmpty = true then [] else ["trace:".data ++ pyJoin [','] ts]) ++
           (if ss.isEmpty = true then [] else ["test:".data ++ pyJoin [','] ss]) ++
           [])
        = _
      rw [if_isEmpty_false htsne, if_isEmpty_false hssne]
      rfl
    rw [hfmt2, List.append_assoc aiKey t.str (':' :: c.str),
      parse_comment_encoded style hsty (t.str ++ ':' :: c.str)
        ["trace:".data ++ pyJoin [','] ts, "test:".data ++ pyJoin [','] ss]
        (by
          intro p hp
          simp only [List.mem_cons, List.not_mem_nil, or_false] at hp
          rcases hp with e | e | e <;> subst e
          · exact hfirst
          · exact ⟨by simp, htrP⟩
          · exact ⟨by simp, hteP⟩)]
    simp only [List.foldl]
    rw [← List.append_assoc aiKey t.str (':' :: c.str),
      applyPart_first emptyMeta t.str c.str htc hcc c (confOfStringQ_str c),
      toolOfStringD_str t,
      applyPart_trace _ (pyJoin [','] ts)
        (fun ch hch => partChar_not_space (mem_join_comma ts htsg ch hch)),
      applyPart_test _ (pyJoin [','] ss)
        (fun ch hch => partChar_not_space (mem_join_comma ss hssg ch hch)),
      split_join_comma ss hssne hssg, if_neg (by simp [emptyMeta])]
    simp [emptyMeta]
  -- trace some ts, tests some ss, reviewer some rv
  · obtain ⟨htsne, htsg⟩ := htr ts rfl
    obtain ⟨hssne, hssg⟩ := hte ss rfl
    have hrvg := hrv rv rfl
    have hrvne : rv ≠ [] := by
      intro e
      subst e
      exact absurd (by decide : nameOf [] = []) fun e2 => hrvg.1 e2
    have htrP : ∀ ch ∈ ("trace:".data ++ pyJoin [','] ts : Str), partChar ch = true := by
      intro ch hch
      rcases List.mem_append.mp hch with h1 | h2
      · exact (by decide : ∀ x ∈ ("trace:".data : Str), partChar x = true) ch h1
      · exact mem_join_comma ts htsg ch h2
    have hteP : ∀ ch ∈ ("test:".data ++ pyJoin [','] ss : Str), partChar ch = true := by
      intro ch hch
      rcases List.mem_append.mp hch with h1 | h2
      · exact (by decide : ∀ x ∈ ("test:".data : Str), partChar x = true) ch h1
      · exact mem_join_comma ss hssg ch h2
    have hrevP : ∀ ch ∈ ("reviewed:".data ++ (today ++ ':' :: nameOf rv) : Str),
        partChar ch = true := by
      intro ch hch
      rcases List.mem_append.mp hch with h1 | h2
      · exact (by decide : ∀ x ∈ ("reviewed:".data : Str), partChar x = true) ch h1
      · rcases List.mem_append.mp h2 with h3 | h4
        · exact goodChar_partChar (htd.2 ch h3)
        · rcases List.mem_cons.mp h4 with e | h5
          · rw [e]; decide
          · exact goodChar_partChar (hrvg.2 ch h5)
    have hfmt2 : format_inline_metadata t.str c.str (some ts) (some ss) (some rv)
        today style
        = style ++ ' ' :: pyJoin " | ".data
            [aiKey ++ t.str ++ ':' :: c.str, "trace:".data ++ pyJoin [','] ts,
             "test:".data ++ pyJoin [','] ss,
             "reviewed:".data ++ today ++ ':' :: nameOf rv] := by
      rw [format_eq_join t.str c.str (some ts) (some ss) (some rv) today style hstyne]
      show style ++ ' ' :: pyJoin " | ".data
          ([aiKey ++ t.str ++ ':' :: c.str] ++
           (if ts.isEmpty = true then [] else ["trace:".data ++ pyJoin [','] ts]) ++
           (if ss.isEmpty = true then [] else ["test:".data ++ pyJoin [','] ss]) ++
           (if rv.isEmpty = true then [] else ["reviewed:".data ++ today ++ ':' :: nameOf rv]))
        = _
      rw [if_isEmpty_false htsne, if_isEmpty_false hssne, if_isEmpty_false hrvne]
      rfl
    rw [hfmt2, List.append_assoc aiKey t.str (':' :: c.str),
      List.append_assoc "reviewed:".data today (':' :: nameOf rv),
      parse_comment_encoded style hsty (t.str ++ ':' :: c.str)
        ["trace:".data ++ pyJoin [','] ts, "test:".data ++ pyJoin [','] ss,
         "reviewed:".data ++ (today ++ ':' :: nameOf rv)]
        (by
          intro p hp
          simp only [List.mem_cons, List.not_mem_nil, or_false] at hp
          rcases hp with e | e | e | e <;> subst e
          · exact hfirst
          · exact ⟨by simp, htrP⟩
          · exact ⟨by simp, hteP⟩
          · exact ⟨by simp, hrevP⟩)]
    simp only [List.foldl]
    rw [← List.append_assoc aiKey t.str (':' :: c.str),
      applyPart_first emptyMeta t.str c.str htc hcc c (confOfStringQ_str c),
      toolOfStringD_str t,
      applyPart_trace _ (pyJoin [','] ts)
        (fun ch hch => partChar_not_space (mem_join_comma ts htsg ch hch)),
      applyPart_test _ (pyJoin [','] ss)
        (fun ch hch => partChar_not_space (mem_join_comma ss hssg ch hch)),
      split_join_comma ss hssne hssg,
      applyPart_reviewed _ (today ++ ':' :: nameOf rv)
        (fun ch hch => partChar_not_space (by
          rcases List.mem_append.mp hch with h3 | h4
          · exact goodChar_partChar (htd.2 ch h3)
          · rcases List.mem_cons.mp h4 with e | h5
            · rw [e]; decide
            · exact goodChar_partChar (hrvg.2 ch h5))),
      if_neg (by simp [emptyMeta])]
    simp [emptyMeta]

/-- C3 witness: a full record (claude, high, one trace id, two test ids,
an e-mail reviewer) round-trips through the `#` style, with the trace
recovered as the opaque string and reviewed as `today:name`. -/
theorem c3_witness :
    InlineMetadata.parse_comment
      (format_inline_metadata AITool.claude.str Confidence.high.str
        (some ["SPEC-89".data]) (some ["TC-210".data, "TC-211".data])
        (some "alice@example.com".data) "2025-11-16".data "#".data)
      = some { tool := some AITool.claude, confidence := some Confidence.high,
               trace := some "SPEC-89".data,
               tests := some ["TC-210".data, "TC-211".data],
               reviewed := some "2025-11-16:alice".data } := by
  have h := c3_amended_round_trip "#".data (Or.inl rfl) AITool.claude Confidence.high
    (some ["SPEC-89".data]) (some ["TC-210".data, "TC-211".data])
    (some "alice@example.com".data) "2025-11-16".data
    (fun l hl => by simp at hl; subst hl; exact ⟨by decide, by decide⟩)
    (fun l hl => by simp at hl; subst hl; exact ⟨by decide, by decide⟩)
    (fun rv hl => by simp at hl; subst hl; exact ⟨by decide, by decide⟩)
    ⟨by decide, by decide⟩
  rw [h]
  decide


/-- C7 counterexample: on a file whose first column-1 tag line belongs to
copilot and whose claude tag sits at line 3, stamping for claude replaces
line 1 (the copilot tag) and leaves the claude tag at line 3 untouched —
not "only that tag's line" as the claim states. -/
theorem c7_counterexample :
    stamp_file ".py".data c7content "claude".data "high".data
      (some ["SPEC-1".data]) none none "top".data "2025-11-16".data
      = .ok "# ai:claude:high | trace:SPEC-1\ncode\n# ai:claude:high".data ∧
    (pySplitChar '\n'
        "# ai:claude:high | trace:SPEC-1\ncode\n# ai:claude:high".data).getD 0 []
      ≠ (pySplitChar '\n' c7content).getD 0 [] ∧
    (pySplitChar '\n'
        "# ai:claude:high | trace:SPEC-1\ncode\n# ai:claude:high".data).getD 2 []
      = (pySplitChar '\n' c7content).getD 2 [] :=
  ⟨by decide, by decide, by decide⟩

/-- C7 amended: when the update branch fires (the substring `ai:<tool>`
occurs and some line matches the column-1 tag pattern), `stamp_file`
replaces exactly the first such line — whichever tool it belongs to — with
the new encoded line: the output is the input's line list with only index
`i` replaced, so the line count and every other line are unchanged. -/
theorem c7_amended_replace_first (ext content : Str) (t : AITool) (c : Confidence)
    (trace tests : Option (List Str)) (reviewer : Option Str) (position today : Str)
    (i : Nat)
    (hin : pyInStr (aiKey ++ t.str) content = true)
    (hfind : findFirstIdx stampLineMatch (pySplitChar '\n' content) = some i) :
    stamp_file ext content t.str c.str trace tests reviewer position today
      = .ok (pyJoin ['\n'] ((pySplitChar '\n' content).set i
          (format_inline_metadata t.str c.str trace tests reviewer today
            (detect_comment_style ext)))) ∧
    ((pySplitChar '\n' content).set i
        (format_inline_metadata t.str c.str trace tests reviewer today
          (detect_comment_style ext))).length
      = (pySplitChar '\n' content).length ∧
    ∀ j, j ≠ i →
      ((pySplitChar '\n' content).set i
          (format_inline_metadata t.str c.str trace tests reviewer today
            (detect_comment_style ext)))[j]?
        = (pySplitChar '\n' content)[j]? := by
  refine ⟨?_, List.length_set _ _ _, fun j hj => List.getElem?_set_ne (Ne.symm hj)⟩
  simp only [stamp_file, toolOfStringQ_str, confOfStringQ_str]
  simp only [stampContent, hin, if_true, hfind]

/-- C7 witness: the spec scenario — a single claude tag at line 3 — has
exactly line 3 (index 2) replaced; lines 1 and 2 are untouched. -/
theorem c7_witness :
    stamp_file ".py".data c7scenario "claude".data "high".data
      (some ["SPEC-42".data]) none none "top".data "2025-11-16".data
      = .ok (pyJoin ['\n'] ((pySplitChar '\n' c7scenario).set 2
          (format_inline_metadata "claude".data "high".data (some ["SPEC-42".data])
            none none "2025-11-16".data (detect_comment_style ".py".data)))) ∧
    ((pySplitChar '\n' c7scenario).set 2
        (format_inline_metadata "claude".data "high".data (some ["SPEC-42".data])
          none none "2025-11-16".data (detect_comment_style ".py".data))).length
      = (pySplitChar '\n' c7scenario).length ∧
    ((pySplitChar '\n' c7scenario).set 2
        (format_inline_metadata "claude".data "high".data (some ["SPEC-42".data])
          none none "2025-11-16".data (detect_comment_style ".py".data)))[0]?
      = (pySplitChar '\n' c7scenario)[0]? ∧
    ((pySplitChar '\n' c7scenario).set 2
        (format_inline_metadata "claude".data "high".data (some ["SPEC-42".data])
          none none "2025-11-16".data (detect_comment_style ".py".data)))[1]?
      = (pySplitChar '\n' c7scenario)[1]? := by
  have h := c7_amended_replace_first ".py".data c7scenario AITool.claude
    Confidence.high (some ["SPEC-42".data]) none none "top".data "2025-11-16".data 2
    (by decide) (by decide)
  exact ⟨h.1, h.2.1, h.2.2 0 (by decide), h.2.2 1 (by decide)⟩


/-! ### Helpers for stamping idempotence -/

theorem takeWhile_cons_true {p : α → Bool} (a : α) (l : List α) (h : p a = true) :
    (a :: l).takeWhile p = a :: l.takeWhile p := by
  simp [List.takeWhile_cons, h]

theorem takeWhile_cons_false {p : α → Bool} (a : α) (l : List α) (h : p a = false) :
    (a :: l).takeWhile p = [] := by
  simp [List.takeWhile_cons, h]

theorem stampLineMatch_style (style rest : Str)
    (hsty : style = "#".data ∨ style = "//".data ∨ style = "--".data) :
    stampLineMatch (style ++ ' ' :: (aiKey ++ rest)) = true := by
  have hks : aiKey.isPrefixOf (aiKey ++ rest) = true := isPrefixOf_append_left aiKey rest
  have hdrop_sp : (' ' :: (aiKey ++ rest) : Str).dropWhile pySpace = aiKey ++ rest := by
    rw [dropWhile_cons_true ' ' _ (by decide),
      show (aiKey ++ rest : Str) = 'a' :: ("i:".data ++ rest) from rfl]
    exact dropWhile_cons_false 'a' _ (by decide)
  rcases hsty with e | e | e <;> subst e
  · rw [show ("#".data ++ ' ' :: (aiKey ++ rest) : Str)
      = '#' :: ' ' :: (aiKey ++ rest) from rfl]
    simp only [stampLineMatch]
    rw [takeWhile_cons_true '#' _ (by decide), takeWhile_cons_false ' ' _ (by decide),
      dropWhile_cons_true '#' _ (by decide), dropWhile_cons_false ' ' _ (by decide),
      hdrop_sp, hks]
    rfl
  · rw [show ("//".data ++ ' ' :: (aiKey ++ rest) : Str)
      = '/' :: '/' :: ' ' :: (aiKey ++ rest) from rfl]
    simp only [stampLineMatch]
    rw [takeWhile_cons_true '/' _ (by decide), takeWhile_cons_true '/' _ (by decide),
      takeWhile_cons_false ' ' _ (by decide),
      dropWhile_cons_true '/' _ (by decide), dropWhile_cons_true '/' _ (by decide),
      dropWhile_cons_false ' ' _ (by decide), hdrop_sp, hks]
    rfl
  · rw [show ("--".data ++ ' ' :: (aiKey ++ rest) : Str)
      = '-' :: '-' :: ' ' :: (aiKey ++ rest) from rfl]
    simp only [stampLineMatch]
    rw [takeWhile_cons_true '-' _ (by decide), takeWhile_cons_true '-' _ (by decide),
      takeWhile_cons_false ' ' _ (by decide),
      dropWhile_cons_true '-' _ (by decide), dropWhile_cons_true '-' _ (by decide),
      dropWhile_cons_false ' ' _ (by decide), hdrop_sp, hks]
    rfl

theorem format_no_newline (t : AITool) (c : Confidence)
    (trace tests : Option (List Str)) (reviewer : Option Str) (today style : Str)
    (hstyle : style = "#".data ∨ style = "//".data ∨ style = "--".data)
    (htr : ∀ l ∈ trace, ∀ x ∈ l, GoodIdent x)
    (hte : ∀ l ∈ tests, ∀ x ∈ l, GoodIdent x)
    (hrv : ∀ rv ∈ reviewer, GoodIdent (nameOf rv))
    (htd : GoodIdent today) :
    ∀ ch ∈ format_inline_metadata t.str c.str trace tests reviewer today style,
      ch ≠ '\n' := by
  have hsty2 : style ≠ "(*".data ∧ style ≠ "/*".data := by
    rcases hstyle with e | e | e <;> subst e <;> exact ⟨by decide, by decide⟩
  rw [format_eq_join t.str c.str trace tests reviewer today style hsty2]
  intro ch hch
  rcases List.mem_append.mp hch with hst | hrest
  · rcases hstyle with e | e | e <;> subst e
    · exact (by decide : ∀ x ∈ ("#".data : Str), x ≠ '\n') ch hst
    · exact (by decide : ∀ x ∈ ("//".data : Str), x ≠ '\n') ch hst
    · exact (by decide : ∀ x ∈ ("--".data : Str), x ≠ '\n') ch hst
  · rcases List.mem_cons.mp hrest with e | hM
    · rw [e]; decide
    · rcases mem_pyJoin " | ".data _ hM with hsep | ⟨p, hp, hcp⟩
      · rw [show (" | ".data : Str) = [' ', '|', ' '] from rfl] at hsep
        have hd : ch = ' ' ∨ ch = '|' ∨ ch = ' ' := by simpa using hsep
        rcases hd with e | e | e <;> rw [e] <;> decide
      · rcases List.mem_append.mp hp with hABp | hC
        · rcases List.mem_append.mp hABp with hAB | hB
          · rcases List.mem_append.mp hAB with hf | hA
            · have e : p = aiKey ++ t.str ++ ':' :: c.str := by simpa using hf
              subst e
              exact fun he => absurd (first_part_chars t.str c.str (toolStr_good t)
                (confStr_good c) ch hcp) (by rw [he]; decide)
            · cases trace with
              | none =>
                rw [optListPart_none] at hA
                simp at hA
              | some ts =>
                rw [optListPart_some] at hA
                by_cases hemp : ts.isEmpty = true
                · rw [if_pos hemp] at hA
                  simp at hA
                · rw [if_neg hemp] at hA
                  have e : p = "trace:".data ++ pyJoin [','] ts := by simpa using hA
                  subst e
                  rcases List.mem_append.mp hcp with h1 | h2
                  · exact (by decide : ∀ x ∈ ("trace:".data : Str), x ≠ '\n') ch h1
                  · exact fun he => absurd (mem_join_comma ts (htr ts rfl) ch h2)
                      (by rw [he]; decide)
          · cases tests with
            | none =>
              rw [optListPart_none] at hB
              simp at hB
            | some ts =>
              rw [optListPart_some] at hB
              by_cases hemp : ts.isEmpty = true
              · rw [if_pos hemp] at hB
                simp at hB
              · rw [if_neg hemp] at hB
                have e : p = "test:".data ++ pyJoin [','] ts := by simpa using hB
                subst e
                rcases List.mem_append.mp hcp with h1 | h2
                · exact (by decide : ∀ x ∈ ("test:".data : Str), x ≠ '\n') ch h1
                · exact fun he => absurd (mem_join_comma ts (hte ts rfl) ch h2)
                    (by rw [he]; decide)
        · cases reviewer with
          | none =>
            rw [optRevPart_none] at hC
            simp at hC
          | some rv =>
            rw [optRevPart_some] at hC
            by_cases hemp : rv.isEmpty = true
            · rw [if_pos hemp] at hC
              simp at hC
            · rw [if_neg hemp] at hC
              have e : p = "reviewed:".data ++ today ++ ':' :: nameOf rv := by simpa using hC
              subst e
              rcases List.mem_append.mp hcp with h1 | h2
              · rcases List.mem_append.mp h1 with h3 | h4
                · exact (by decide : ∀ x ∈ ("reviewed:".data : Str), x ≠ '\n') ch h3
                · exact fun he => absurd (goodChar_partChar (htd.2 ch h4))
                    (by rw [he]; decide)
              · rcases List.mem_cons.mp h2 with e2 | h5
                · rw [e2]; decide
                · exact fun he => absurd (goodChar_partChar ((hrv rv rfl).2 ch h5))
                    (by rw [he]; decide)


/-- C8 counterexample: stamping claude at the bottom of a file that already
holds a copilot tag, then stamping again with identical arguments, is not
idempotent: the second stamp rewrites the copilot line into a second claude
line, so the twice-stamped file differs from the once-stamped file and
holds two claude tag lines. -/
theorem c8_counterexample :
    stamp_file ".py".data c8content "claude".data "high".data none none none
      "bottom".data "2025-11-16".data
      = .ok "# ai:copilot:low\ncode\n\n# ai:claude:high\n".data ∧
    stamp_file ".py".data "# ai:copilot:low\ncode\n\n# ai:claude:high\n".data
      "claude".data "high".data none none none "bottom".data "2025-11-16".data
      = .ok "# ai:claude:high\ncode\n\n# ai:claude:high\n".data ∧
    ("# ai:claude:high\ncode\n\n# ai:claude:high\n".data : Str)
      ≠ "# ai:copilot:low\ncode\n\n# ai:claude:high\n".data :=
  ⟨by decide, by decide, by decide⟩

set_option maxHeartbeats 1000000 in
/-- C8 amended: stamping is idempotent on the update branch: if the file
contains the substring `ai:<tool>` and some column-1 tag line (so the stamp
replaces the first such line), the comment style is a single-line prefix
(`#`, `//` or `--`), and the record fields are well-formed identifiers,
then stamping twice with the same arguments produces exactly the
once-stamped content.  (The insert branch is not idempotent in general, as
the bottom-insert counterexample shows.) -/
theorem c8_amended_update_idempotent (ext content : Str) (t : AITool) (c : Confidence)
    (trace tests : Option (List Str)) (reviewer : Option Str) (position today : Str)
    (i : Nat)
    (hstyle : detect_comment_style ext = "#".data ∨
      detect_comment_style ext = "//".data ∨ detect_comment_style ext = "--".data)
    (htr : ∀ l ∈ trace, ∀ x ∈ l, GoodIdent x)
    (hte : ∀ l ∈ tests, ∀ x ∈ l, GoodIdent x)
    (hrv : ∀ rv ∈ reviewer, GoodIdent (nameOf rv))
    (htd : GoodIdent today)
    (hin : pyInStr (aiKey ++ t.str) content = true)
    (hfind : findFirstIdx stampLineMatch (pySplitChar '\n' content) = some i) :
    ∃ once,
      stamp_file ext content t.str c.str trace tests reviewer position today
        = .ok once ∧
      stamp_file ext once t.str c.str trace tests reviewer position today
        = .ok once := by
  have hsty2 : detect_comment_style ext ≠ "(*".data ∧
      detect_comment_style ext ≠ "/*".data := by
    rcases hstyle with e | e | e <;> rw [e] <;> exact ⟨by decide, by decide⟩
  have hfmt := format_eq_join t.str c.str trace tests reviewer today
    (detect_comment_style ext) hsty2
  obtain ⟨tl, htl⟩ := pyJoin_cons_exists " | ".data (aiKey ++ t.str ++ ':' :: c.str)
    ((optListPart "trace:".data trace ++ optListPart "test:".data tests) ++
     optRevPart today reviewer)
  have hmJ : pyJoin " | ".data
      ([aiKey ++ t.str ++ ':' :: c.str] ++
       optListPart "trace:".data trace ++ optListPart "test:".data tests ++
       optRevPart today reviewer)
      = (aiKey ++ t.str ++ ':' :: c.str) ++ tl := htl
  have hline : format_inline_metadata t.str c.str trace tests reviewer today
      (detect_comment_style ext)
      = detect_comment_style ext ++ ' ' :: ((aiKey ++ t.str ++ ':' :: c.str) ++ tl) := by
    rw [hfmt, hmJ]
  have hm_nl := format_no_newline t c trace tests reviewer today
    (detect_comment_style ext) hstyle htr hte hrv htd
  have hmatch : stampLineMatch (format_inline_metadata t.str c.str trace tests reviewer
      today (detect_comment_style ext)) = true := by
    rw [hline,
      show ((aiKey ++ t.str ++ ':' :: c.str) ++ tl : Str)
        = aiKey ++ ((t.str ++ ':' :: c.str) ++ tl) by simp]
    exact stampLineMatch_style _ _ hstyle
  have hsubI : (aiKey ++ t.str : Str) <:+: format_inline_metadata t.str c.str trace
      tests reviewer today (detect_comment_style ext) := by
    rw [hline]
    exact ⟨detect_comment_style ext ++ [' '], ':' :: c.str ++ tl, by simp⟩
  have hlines_ne : pySplitChar '\n' content ≠ [] := pySplitChar_ne_nil '\n' content
  have hilt : i < (pySplitChar '\n' content).length := findFirstIdx_lt_length hfind
  have hset_ne : (pySplitChar '\n' content).set i
      (format_inline_metadata t.str c.str trace tests reviewer today
        (detect_comment_style ext)) ≠ [] := by
    intro e
    have h2 := congrArg List.length e
    rw [List.length_set] at h2
    exact hlines_ne (List.length_eq_zero.mp h2)
  have hset_nl : ∀ l ∈ (pySplitChar '\n' content).set i
      (format_inline_metadata t.str c.str trace tests reviewer today
        (detect_comment_style ext)), '\n' ∉ l := by
    intro l hl
    rcases mem_of_mem_set hl with e | hm2
    · subst e
      intro hc
      exact hm_nl '\n' hc rfl
    · exact mem_pySplitChar_not_sep '\n' content l hm2
  have hsplit_once : pySplitChar '\n'
      (pyJoin ['\n'] ((pySplitChar '\n' content).set i
        (format_inline_metadata t.str c.str trace tests reviewer today
          (detect_comment_style ext))))
      = (pySplitChar '\n' content).set i
          (format_inline_metadata t.str c.str trace tests reviewer today
            (detect_comment_style ext)) :=
    pyJoin_split '\n' _ hset_ne hset_nl
  have hmem_set : format_inline_metadata t.str c.str trace tests reviewer today
      (detect_comment_style ext)
      ∈ (pySplitChar '\n' content).set i
          (format_inline_metadata t.str c.str trace tests reviewer today
            (detect_comment_style ext)) :=
    List.mem_set (pySplitChar '\n' content) i hilt _
  have hin2 : pyInStr (aiKey ++ t.str)
      (pyJoin ['\n'] ((pySplitChar '\n' content).set i
        (format_inline_metadata t.str c.str trace tests reviewer today
          (detect_comment_style ext)))) = true :=
    pyInStr_of_sub _ _ (hsubI.trans (sub_pyJoin _ ['\n'] _ hmem_set))
  have hfind2 : findFirstIdx stampLineMatch
      ((pySplitChar '\n' content).set i
        (format_inline_metadata t.str c.str trace tests reviewer today
          (detect_comment_style ext))) = some i :=
    findFirstIdx_set_same hfind hmatch
  refine ⟨pyJoin ['\n'] ((pySplitChar '\n' content).set i
    (format_inline_metadata t.str c.str trace tests reviewer today
      (detect_comment_style ext))), ?_, ?_⟩
  · simp only [stamp_file, toolOfStringQ_str, confOfStringQ_str]
    simp only [stampContent, hin, if_true, hfind]
  · simp only [stamp_file, toolOfStringQ_str, confOfStringQ_str]
    simp only [stampContent, hin2, if_true, hsplit_once, hfind2, List.set_set]

/-- C8 witness: restamping the replaced file is a fixed point on a file
whose first column-1 tag line is replaced in the update branch. -/
theorem c8_witness :
    ∃ once,
      stamp_file ".py".data "# ai:claude:low\ncode".data "claude".data "high".data
        none none none "top".data "2025-11-16".data = .ok once ∧
      stamp_file ".py".data once "claude".data "high".data none none none
        "top".data "2025-11-16".data = .ok once :=
  c8_amended_update_idempotent ".py".data "# ai:claude:low\ncode".data
    AITool.claude Confidence.high none none none "top".data "2025-11-16".data 0
    (by decide) (by simp) (by simp) (by simp) ⟨by decide, by decide⟩
    (by decide) (by decide)

end AIProvenance
